import Mathlib

/-!
A shallow embedding of `icopacker.c`.

`icopacker <PNG_input_file_directory> <ICO_output_file>` scans a directory for
PNG files, validates the first 26 bytes of each one and packs the accepted
files into one ICO container.

The embedding follows `main` of `icopacker.c` statement by statement.

* The host byte order is a parameter (`Host`), as the `#if __BYTE_ORDER__`
  branches select different `mapLExx`/`mapBExx` macros.
* The payload buffer `icodat` is a map from byte index to byte together with
  the size of its allocation (`datcap`); an access outside the allocation is
  undefined behaviour of the C program and is reported as `none` /
  `Verdict.undefined` / `Outcome.undefined`.
* `malloc` and `reallocf` are taken to succeed, `off_t` and `size_t` are 64 bit
  wide, and `write` transfers all it is given. `reallocf` keeps the bytes of the
  block. Alignment of the `uint32_t` loads from `icodat+offset` and of the
  `int32_t` load from `d_name` is not modelled.
* What `lstat`, `open` and `read` return for a file is part of the input
  (`PngFile`): `read` may fail or transfer fewer bytes than asked for, and line
  282 compares its return value with `st.st_size`.
* The input of the scan loop is the sequence of directory entries that passed
  the name and type filter of line 265, in the order `readdir_r` yields them.
  The filter itself is `isCandidate`; the bytes that `<dirent.h>` puts in front
  of `d_name` are part of its input (`DirEnt.front`).
-/

namespace Icopacker

/-! ## Byte order mapping (lines 45-201) -/

/-- Byte order of the host, `__BYTE_ORDER__`. -/
inductive Host where
  | little
  | big
  deriving DecidableEq

/-- One byte of memory or of a file. -/
abbrev Byte := Fin 256

/-- The low eight bits of a number, as a byte. -/
def byte (n : Nat) : Byte := ⟨n % 256, Nat.mod_lt n (by decide)⟩

/-- The two bytes `p[0], p[1]` of a `uint16_t` object holding `x`. -/
def store16 : Host → Nat → Byte × Byte
  | .little, x => (byte x, byte (x / 256))
  | .big, x => (byte (x / 256), byte x)

/-- The value of a `uint16_t` object whose bytes are `b0, b1`. -/
def load16 : Host → Byte → Byte → Nat
  | .little, b0, b1 => b0.val + 256 * b1.val
  | .big, b0, b1 => 256 * b0.val + b1.val

/-- The four bytes `p[0] .. p[3]` of a `uint32_t` object holding `x`. -/
def store32 : Host → Nat → Byte × Byte × Byte × Byte
  | .little, x => (byte x, byte (x / 256), byte (x / 65536), byte (x / 16777216))
  | .big, x => (byte (x / 16777216), byte (x / 65536), byte (x / 256), byte x)

/-- The value of a `uint32_t` object whose bytes are `b0 .. b3`. -/
def load32 : Host → Byte → Byte → Byte → Byte → Nat
  | .little, b0, b1, b2, b3 => b0.val + 256 * b1.val + 65536 * b2.val + 16777216 * b3.val
  | .big, b0, b1, b2, b3 => 16777216 * b0.val + 65536 * b1.val + 256 * b2.val + b3.val

/-- Portable `SwapInt16`: `q[0] = p[1]; q[1] = p[0]` on the object bytes. -/
def SwapInt16 (host : Host) (x : Nat) : Nat :=
  let p := store16 host x
  load16 host p.2 p.1

/-- Portable `SwapInt32`: `q[0] = p[3]; q[1] = p[2]; q[2] = p[1]; q[3] = p[0]`. -/
def SwapInt32 (host : Host) (x : Nat) : Nat :=
  let p := store32 host x
  load32 host p.2.2.2 p.2.2.1 p.2.1 p.1

/-- Macro `mapLE16`: identity on a little-endian host, `SwapInt16` otherwise. -/
def mapLE16 : Host → Nat → Nat
  | .little, x => x
  | .big, x => SwapInt16 .big x

/-- Macro `mapLE32`: identity on a little-endian host, `SwapInt32` otherwise. -/
def mapLE32 : Host → Nat → Nat
  | .little, x => x
  | .big, x => SwapInt32 .big x

/-- Macro `mapBE32`: `SwapInt32` on a little-endian host, identity otherwise. -/
def mapBE32 : Host → Nat → Nat
  | .little, x => SwapInt32 .little x
  | .big, x => x

/-- Truncation to `uint32_t`. -/
def u32 (n : Nat) : Nat := n % 4294967296

/-- Truncation to `uint16_t`. -/
def u16 (n : Nat) : Nat := n % 65536

/-- Truncation to `uint8_t`. -/
def u8 (n : Nat) : Nat := n % 256

/-- Limit `UINT16_MAX`. -/
def UINT16_MAX : Nat := 65535

/-- Limit `UINT32_MAX`. -/
def UINT32_MAX : Nat := 4294967295

/-! ## PNG header validation (lines 279-318) -/

/-- Result of the header checks of lines 282-318 on the bytes at `icodat+offset`.
`undefined` stands for a load outside the buffer. -/
inductive Verdict where
  | undefined
  | ignore
  | accept (w h pixeldepth : Nat)
  deriving DecidableEq

/-- The word `png[j]`: a `uint32_t` load of bytes `4j .. 4j+3` in host order.
The reader `rd` yields `none` for a byte outside the buffer. -/
def png (host : Host) (rd : Nat → Option Byte) (j : Nat) : Option Nat :=
  match rd (4 * j), rd (4 * j + 1), rd (4 * j + 2), rd (4 * j + 3) with
  | some b0, some b1, some b2, some b3 => some (load32 host b0 b1 b2 b3)
  | _, _, _, _ => none

/-- The `switch (colorspec[1])` of lines 292-316: the factor applied to the bit
depth, `none` for the `default: goto ignore` branch. -/
def colorFactor : Nat → Option Nat
  | 0 => some 1
  | 2 => some 3
  | 3 => some 1
  | 4 => some 2
  | 6 => some 4
  | _ => none

/-- Header checks of lines 282-318, in source order with the short circuit of
`&&`; `pixeldepth` is a `uint16_t`. -/
def inspect (host : Host) (rd : Nat → Option Byte) : Verdict :=
  match png host rd 0 with
  | none => .undefined
  | some p0 =>
  if p0 ≠ load32 host 0x89 0x50 0x4E 0x47 then .ignore else
  match png host rd 1 with
  | none => .undefined
  | some p1 =>
  if p1 ≠ load32 host 0x0D 0x0A 0x1A 0x0A then .ignore else
  match png host rd 2 with
  | none => .undefined
  | some p2 =>
  if mapBE32 host p2 ≠ 13 then .ignore else
  match png host rd 3 with
  | none => .undefined
  | some p3 =>
  if p3 ≠ load32 host 0x49 0x48 0x44 0x52 then .ignore else
  match png host rd 4 with
  | none => .undefined
  | some p4 =>
  let w := mapBE32 host p4
  if ¬ (0 < w ∧ w ≤ 256) then .ignore else
  match png host rd 5 with
  | none => .undefined
  | some p5 =>
  let h := mapBE32 host p5
  if ¬ (0 < h ∧ h ≤ 256) then .ignore else
  match rd 25 with
  | none => .undefined
  | some colorspec1 =>
  match colorFactor colorspec1.val with
  | none => .ignore
  | some k =>
  match rd 24 with
  | none => .undefined
  | some colorspec0 =>
  let pixeldepth := u16 (k * colorspec0.val)
  if pixeldepth ≤ 32 then .accept w h pixeldepth else .ignore

/-- Reader over a standalone byte buffer. -/
def readBuf (buf : List Byte) : Nat → Option Byte :=
  fun k => buf[k]?

/-! ## ICO file format (lines 204-236) -/

/-- Record `ICOEntry` (packed, 16 bytes). The fields hold the values of the
members as stored, that is after `mapLExx`. -/
structure ICOEntry where
  width : Nat
  height : Nat
  colorcount : Nat
  reserverd : Nat
  planescount : Nat
  pixeldepth : Nat
  imagesize : Nat
  imageoffset : Nat
  deriving DecidableEq

/-- The 16 bytes of an `ICOEntry` object in memory. -/
def ICOEntry.bytes (host : Host) (e : ICOEntry) : List Byte :=
  let pc := store16 host e.planescount
  let pd := store16 host e.pixeldepth
  let sz := store32 host e.imagesize
  let off := store32 host e.imageoffset
  [byte e.width, byte e.height, byte e.colorcount, byte e.reserverd,
   pc.1, pc.2, pd.1, pd.2,
   sz.1, sz.2.1, sz.2.2.1, sz.2.2.2,
   off.1, off.2.1, off.2.2.1, off.2.2.2]

/-! ## The scan loop of `main` (lines 253-335) -/

/-- A directory entry that passed the filter of line 265, with what the system
calls on it deliver: whether `lstat` and `open` succeed, the contents of the
file, and the return value of `read(pngfd, png, st.st_size)`: `some n` when the
call transfers `n` bytes, `none` for -1. `st.st_size` is the length of the
contents. -/
structure PngFile where
  lstatOk : Bool
  openOk : Bool
  data : List Byte
  readRet : Option Nat
  deriving DecidableEq

/-- Member `st.st_size` after `lstat`. -/
def PngFile.st_size (f : PngFile) : Nat := f.data.length

/-- The bytes that `read(pngfd, png, st.st_size)` stores at `png`: the first `n`
bytes of the file when the call returns `n`, nothing when it fails. -/
def PngFile.readData (f : PngFile) : List Byte :=
  match f.readRet with
  | none => []
  | some n => f.data.take n

/-- The local variables of `main` during the scan: `dircnt`, `count`, `bufsiz`,
`offset`, the header members `reserved` and `filetype` and the entries
`entry[0 .. count)` of `*icodir`, the bytes of `icodat` and the size `datcap` of
the allocation behind `icodat`. The header member `imgcount` is assigned in the
wrapping-up stage only. -/
structure Packer where
  dircnt : Nat
  count : Nat
  bufsiz : Nat
  offset : Nat
  reserved : Nat
  filetype : Nat
  entry : List ICOEntry
  icodat : Nat → Byte
  datcap : Nat

/-- State after lines 255-262; `garbage` is the indeterminate content of the
block returned by `malloc(bufsiz)`. -/
def Packer.init (host : Host) (garbage : Nat → Byte) : Packer where
  dircnt := 10
  count := 0
  bufsiz := 1048576
  offset := 0
  reserved := 0
  filetype := mapLE16 host 1
  entry := []
  icodat := garbage
  datcap := 1048576

/-- Memory after `read(pngfd, icodat+offset, st.st_size)` stored `data`. -/
def poke (icodat : Nat → Byte) (offset : Nat) (data : List Byte) : Nat → Byte :=
  fun i => if i < offset then icodat i else (data[i - offset]?).getD (icodat i)

/-- Byte `k` of the object at `icodat+offset`, `none` outside the allocation. -/
def peek (icodat : Nat → Byte) (datcap offset : Nat) : Nat → Option Byte :=
  fun k => if offset + k < datcap then some (icodat (offset + k)) else none

/-- The compound literal of lines 320-325. -/
def newEntry (host : Host) (w h pixeldepth st_size offset : Nat) : ICOEntry where
  width := u8 (if w ≠ 256 then w else 0)
  height := u8 (if h ≠ 256 then h else 0)
  colorcount := 0
  reserverd := 0
  planescount := mapLE16 host 1
  pixeldepth := mapLE16 host pixeldepth
  imagesize := mapLE32 host (u32 st_size)
  imageoffset := offset

/-- Body of the scan loop for one candidate (lines 267-334); `none` when the
program leaves defined behaviour by accessing `icodat` or `icodir->entry`
outside their allocations. The bytes that `read` transfers are stored at
`icodat+offset` whatever it returns, and leave the allocation when they do not
fit behind `icodat+offset`; the header checks follow only when `read` returns
`st.st_size`, the first conjunct of line 282. -/
def visit (host : Host) (s : Packer) (f : PngFile) : Option Packer :=
  if f.lstatOk = true ∧ f.st_size ≤ UINT32_MAX ∧ f.openOk = true then
    let dircnt := if s.count < s.dircnt then s.dircnt else u32 (s.dircnt + 10)
    let datcap := if s.offset + f.st_size < s.bufsiz then s.datcap
      else s.bufsiz + f.st_size + 1048576
    if s.offset + f.readData.length ≤ datcap then
      let icodat := poke s.icodat s.offset f.readData
      if f.readRet = some f.st_size then
        match inspect host (peek icodat datcap s.offset) with
        | .undefined => none
        | .ignore => some { s with dircnt := dircnt, datcap := datcap, icodat := icodat }
        | .accept w h pixeldepth =>
          if s.count < dircnt then
            some { s with
              dircnt := dircnt
              datcap := datcap
              icodat := icodat
              entry := s.entry ++ [newEntry host w h pixeldepth f.st_size s.offset]
              count := u32 (s.count + 1)
              offset := u32 (s.offset + f.st_size) }
          else none
      else some { s with dircnt := dircnt, datcap := datcap, icodat := icodat }
    else none
  else some s

/-- The `while (count <= UINT16_MAX && readdir_r(...) == no_error && ep)` loop
over the candidates. -/
def scan (host : Host) : Packer → List PngFile → Option Packer
  | s, [] => some s
  | s, f :: fs =>
    if s.count ≤ UINT16_MAX then
      match visit host s f with
      | none => none
      | some s1 => scan host s1 fs
    else some s

/-! ## The name and type filter (line 265) -/

/-- A record `struct dirent` as line 265 reads it: the `d_namlen` bytes of
`d_name`, the member `d_type`, the bytes of the record in front of `d_name`
(`front k` is the byte at `d_name - 1 - k`; which members they belong to is laid
down by `<dirent.h>`, not by the source), and the file the name refers to. -/
structure DirEnt where
  d_name : List Byte
  d_type : Nat
  front : Nat → Byte
  file : PngFile

/-- Value `DT_REG` of `d_type` for a regular file. -/
def DT_REG : Nat := 8

/-- Member `d_namlen`. -/
def DirEnt.d_namlen (ep : DirEnt) : Nat := ep.d_name.length

/-- Byte `d_name[i]`; the name is followed by its terminating NUL. -/
def DirEnt.nameAt (ep : DirEnt) (i : Nat) : Byte := ep.d_name.getD i 0

/-- The byte at `d_name + d_namlen - k`, for `k` from 1 to 4: a byte of the name
when the name has at least `k` bytes, a byte in front of `d_name` otherwise. -/
def DirEnt.tailAt (ep : DirEnt) (k : Nat) : Byte :=
  if k ≤ ep.d_namlen then ep.nameAt (ep.d_namlen - k) else ep.front (k - ep.d_namlen - 1)

/-- The load `*(int32_t *)(ep->d_name+ep->d_namlen-4)`: the four bytes in front
of the end of the name as one word in host order. Two such words are equal as
`int32_t` exactly when they are equal as `uint32_t`. -/
def nameTail (host : Host) (ep : DirEnt) : Nat :=
  load32 host (ep.tailAt 4) (ep.tailAt 3) (ep.tailAt 2) (ep.tailAt 1)

/-- The condition of line 265; the word compared with is `*(int32_t *)".png"`. -/
def isCandidate (host : Host) (ep : DirEnt) : Bool :=
  decide (ep.nameAt 0 ≠ 0x2E) && decide (ep.d_type = DT_REG) &&
    decide (nameTail host ep = load32 host 0x2E 0x70 0x6E 0x67)

/-- The scan loop of lines 264-335 over the records `readdir_r` yields, filter
included. -/
def scanDir (host : Host) : Packer → List DirEnt → Option Packer
  | s, [] => some s
  | s, ep :: eps =>
    if s.count ≤ UINT16_MAX then
      if isCandidate host ep = true then
        match visit host s ep.file with
        | none => none
        | some s1 => scanDir host s1 eps
      else scanDir host s eps
    else some s

/-! ## The wrapping-up stage (lines 337-351) -/

/-- What a run leaves at the output path. -/
inductive Outcome where
  | undefined
  | noFile
  | file (bytes : List Byte)
  deriving DecidableEq

/-- Value of `dirsiz` (line 342). -/
def dirsiz (s : Packer) : Nat := u32 (6 + s.count * 16)

/-- The entries after the loop of lines 343-344. -/
def patchedEntries (host : Host) (s : Packer) : List ICOEntry :=
  s.entry.map fun e => { e with imageoffset := mapLE32 host (u32 (dirsiz s + e.imageoffset)) }

/-- The bytes of `*icodir` handed to `write(icofd, icodir, dirsiz)`. -/
def icodirBytes (host : Host) (s : Packer) : List Byte :=
  let r := store16 host s.reserved
  let t := store16 host s.filetype
  let c := store16 host (mapLE16 host (u16 s.count))
  ([r.1, r.2, t.1, t.2, c.1, c.2] ++ (patchedEntries host s).flatMap (ICOEntry.bytes host)).take
    (dirsiz s)

/-- Lines 337-351: the output file, if one is written. `icoOpenOk` tells
whether `open(argv[2], ...)` succeeds. -/
def wrapUp (host : Host) (icoOpenOk : Bool) (s : Packer) : Outcome :=
  if s.count ≠ 0 ∧ s.offset ≠ 0 ∧ icoOpenOk = true then
    if s.offset ≤ s.datcap then
      .file (icodirBytes host s ++ (List.range s.offset).map s.icodat)
    else .undefined
  else .noFile

/-- The program on a readable directory: scan, then wrap up. -/
def icopacker (host : Host) (garbage : Nat → Byte) (files : List PngFile)
    (icoOpenOk : Bool) : Outcome :=
  match scan host (Packer.init host garbage) files with
  | none => .undefined
  | some s => wrapUp host icoOpenOk s

/-! ## Notions used to state the properties -/

/-- Bytes `i .. i+3` of `g` read as a big-endian 32-bit integer. -/
def be32 (g : Nat → Byte) (i : Nat) : Nat :=
  16777216 * (g i).val + 65536 * (g (i + 1)).val + 256 * (g (i + 2)).val + (g (i + 3)).val

/-- Byte `i` of a buffer, `0` past its end. -/
def bufAt (buf : List Byte) : Nat → Byte :=
  fun i => buf.getD i 0

/-- Number of channels of a PNG colour type: 0 grayscale, 2 rgb, 3 indexed,
4 grayscale + alpha, 6 rgb + alpha. -/
def channels : Nat → Nat
  | 0 => 1
  | 2 => 3
  | 3 => 1
  | 4 => 2
  | 6 => 4
  | _ => 0

/-- The framing conditions on the first 24 bytes: signature, header chunk length
13, chunk type `IHDR`, width and height in 1..256. -/
def framed (g : Nat → Byte) : Prop :=
  g 0 = 0x89 ∧ g 1 = 0x50 ∧ g 2 = 0x4E ∧ g 3 = 0x47 ∧
  g 4 = 0x0D ∧ g 5 = 0x0A ∧ g 6 = 0x1A ∧ g 7 = 0x0A ∧
  be32 g 8 = 13 ∧
  g 12 = 0x49 ∧ g 13 = 0x48 ∧ g 14 = 0x44 ∧ g 15 = 0x52 ∧
  (0 < be32 g 16 ∧ be32 g 16 ≤ 256) ∧ (0 < be32 g 20 ∧ be32 g 20 ≤ 256)

/-- Reading of a width or height byte of an ICO entry: 0 means 256 pixels. -/
def decodeDim (b : Nat) : Nat := if b = 0 then 256 else b

/-- The candidates for which the loop body stores an entry, in scan order. -/
def accepted (host : Host) : Packer → List PngFile → List PngFile
  | _, [] => []
  | s, f :: fs =>
    if s.count ≤ UINT16_MAX then
      match visit host s f with
      | none => []
      | some s1 =>
        if s1.entry.length = s.entry.length then accepted host s1 fs
        else f :: accepted host s1 fs
    else []

/-- Sum of the byte sizes of a list of files. -/
def totalSize (fs : List PngFile) : Nat := (fs.map PngFile.st_size).sum

/-- Start positions of consecutive blocks of the given sizes, the first block
starting at `o`. -/
def offsetsFrom : Nat → List Nat → List Nat
  | _, [] => []
  | o, n :: ns => o :: offsetsFrom (o + n) ns

/-! ## Concrete files and outputs used below -/

/-- The 26 inspected bytes of a 1x1 PNG with 8 bit RGBA: signature, chunk
length 13, `IHDR`, width 1, height 1, bit depth 8, colour type 6. -/
def tinyHeader : List Byte :=
  [0x89, 0x50, 0x4E, 0x47, 0x0D, 0x0A, 0x1A, 0x0A, 0, 0, 0, 13,
   0x49, 0x48, 0x44, 0x52, 0, 0, 0, 1, 0, 0, 0, 1, 8, 6]

/-- A file holding exactly the 26 bytes of `tinyHeader`. -/
def tinyPng : PngFile := ⟨true, true, tinyHeader, some 26⟩

/-- Memory that `malloc` returns zero-filled. -/
def zeroed : Nat → Byte := fun _ => 0

/-- A 64x64 PNG header with 16 bit RGBA (pixel depth 64) and the first bytes
after the colour type: 33 bytes. -/
def deepPng : PngFile :=
  ⟨true, true, [0x89, 0x50, 0x4E, 0x47, 0x0D, 0x0A, 0x1A, 0x0A, 0, 0, 0, 13,
    0x49, 0x48, 0x44, 0x52, 0, 0, 0, 64, 0, 0, 0, 64, 16, 6, 0, 0, 0, 0xAA, 0xBB, 0xCC, 0xDD],
    some 33⟩

/-- A file cut off after 25 bytes: a 64x64 header up to the bit depth 8, without
the colour type. -/
def truncatedPng : PngFile :=
  ⟨true, true, [0x89, 0x50, 0x4E, 0x47, 0x0D, 0x0A, 0x1A, 0x0A, 0, 0, 0, 13,
    0x49, 0x48, 0x44, 0x52, 0, 0, 0, 64, 0, 0, 0, 64, 8], some 25⟩

/-- A 33 byte file with a valid signature whose header chunk length is 14. -/
def badLengthPng : PngFile :=
  ⟨true, true, [0x89, 0x50, 0x4E, 0x47, 0x0D, 0x0A, 0x1A, 0x0A, 0, 0, 0, 14,
    0x49, 0x48, 0x44, 0x52, 0, 0, 0, 64, 0, 0, 0, 64, 8, 6, 0, 0, 0, 0xAA, 0xBB, 0xCC, 0xDD],
    some 33⟩

/-- A 12 byte file: the signature and the chunk length 13, nothing else. -/
def leadPng : PngFile :=
  ⟨true, true, [0x89, 0x50, 0x4E, 0x47, 0x0D, 0x0A, 0x1A, 0x0A, 0, 0, 0, 13], some 12⟩

/-- The first 33 bytes of a 256x255 PNG with 8 bit RGB: the 8 signature bytes,
the header chunk (length 13, `IHDR`, width, height, bit depth 8, colour type
2, three method bytes) and its checksum. -/
def sampleHeader : List Byte :=
  [0x89, 0x50, 0x4E, 0x47, 0x0D, 0x0A, 0x1A, 0x0A, 0, 0, 0, 13,
   0x49, 0x48, 0x44, 0x52, 0, 0, 1, 0, 0, 0, 0, 255, 8, 2, 0, 0, 0, 0x11, 0x22, 0x33, 0x44]

/-- A file holding the 33 bytes of `sampleHeader`. -/
def samplePng : PngFile := ⟨true, true, sampleHeader, some 33⟩

/-- The 97 bytes written for `tinyPng`, `deepPng`, `samplePng`: header, the
entries of `tinyPng` and `samplePng`, and their contents. -/
def sampleOutput : List Byte :=
  [0, 0, 1, 0, 2, 0,
   1, 1, 0, 0, 1, 0, 32, 0, 26, 0, 0, 0, 38, 0, 0, 0,
   0, 255, 0, 0, 1, 0, 24, 0, 33, 0, 0, 0, 64, 0, 0, 0] ++ tinyHeader ++ sampleHeader

/-- A file of 3145728 bytes (3 MiB) that starts with `tinyHeader`. -/
def bigPng : PngFile := ⟨true, true, tinyHeader ++ List.replicate 3145702 0, some 3145728⟩

/-- A regular file of the given name, with the given bytes in front of
`d_name`. -/
def regular (name : List Byte) (front : Nat → Byte) (f : PngFile) : DirEnt :=
  ⟨name, DT_REG, front, f⟩

/-- The name `a`. -/
def nameA : List Byte := [0x61]

/-- The name `ab`. -/
def nameAB : List Byte := [0x61, 0x62]

/-- The name `abc`. -/
def nameABC : List Byte := [0x61, 0x62, 0x63]

/-- The name `png`. -/
def namePng : List Byte := [0x70, 0x6E, 0x67]

/-- The name `a.png`. -/
def nameAPng : List Byte := [0x61, 0x2E, 0x70, 0x6E, 0x67]

/-- The name `notes.txt`. -/
def nameNotesTxt : List Byte := [0x6E, 0x6F, 0x74, 0x65, 0x73, 0x2E, 0x74, 0x78, 0x74]

/-- The name `b.PNG`. -/
def nameBUpper : List Byte := [0x62, 0x2E, 0x50, 0x4E, 0x47]

/-- The name `.png`. -/
def nameDotPng : List Byte := [0x2E, 0x70, 0x6E, 0x67]

/-- A directory (`d_type` 4, `DT_DIR`) named `a.png`. -/
def entDirPng (front : Nat → Byte) (f : PngFile) : DirEnt := ⟨nameAPng, 4, front, f⟩

/-- Bytes in front of `d_name` in a record that has `d_type`, here `DT_REG`,
right in front of the name and zero bytes before it. -/
def typeInFront : Nat → Byte := fun k => if k = 0 then 8 else 0

/-- A regular file named `png` in such a record. -/
def entPng : DirEnt := regular namePng typeInFront tinyPng

/-- The state after ten files `tinyPng` on a little-endian host with a zeroed
buffer (the initial state, were that run undefined). -/
def tenTiny : Packer :=
  (scan .little (Packer.init .little zeroed) (List.replicate 10 tinyPng)).getD
    (Packer.init .little zeroed)

theorem load32_inj (host : Host) (a0 a1 a2 a3 b0 b1 b2 b3 : Byte) :
    load32 host a0 a1 a2 a3 = load32 host b0 b1 b2 b3 ↔ a0 = b0 ∧ a1 = b1 ∧ a2 = b2 ∧ a3 = b3 := by
  cases host <;> simp only [load32, Fin.ext_iff] <;> omega

theorem mapBE32_load32 (host : Host) (b0 b1 b2 b3 : Byte) :
    mapBE32 host (load32 host b0 b1 b2 b3) =
      16777216 * b0.val + 65536 * b1.val + 256 * b2.val + b3.val := by
  cases host
  · simp only [mapBE32, SwapInt32, store32, load32, byte]
    omega
  · simp only [mapBE32, load32]

/-! ## The header checks on a buffer whose first 26 bytes are readable -/

theorem colorFactor_le (c k : Nat) (h : colorFactor c = some k) : 1 ≤ k ∧ k ≤ 4 := by
  unfold colorFactor at h
  split at h <;> simp at h <;> omega

theorem colorFactor_eq_some_iff (c k : Nat) :
    colorFactor c = some k ↔ (c = 0 ∨ c = 2 ∨ c = 3 ∨ c = 4 ∨ c = 6) ∧ k = channels c := by
  unfold colorFactor channels
  split <;> simp
  all_goals first | omega | tauto

theorem colorFactor_eq_none_iff (c : Nat) :
    colorFactor c = none ↔ ¬ (c = 0 ∨ c = 2 ∨ c = 3 ∨ c = 4 ∨ c = 6) := by
  unfold colorFactor
  split <;> simp
  tauto

/-- The header checks as one condition on the 26 bytes `g 0 .. g 25`, when the
reader delivers all of them. -/
theorem inspect_of_reads (host : Host) (rd : Nat → Option Byte) (g : Nat → Byte)
    (hrd : ∀ k, k < 26 → rd k = some (g k)) :
    inspect host rd =
      if g 0 = 0x89 ∧ g 1 = 0x50 ∧ g 2 = 0x4E ∧ g 3 = 0x47 ∧
         g 4 = 0x0D ∧ g 5 = 0x0A ∧ g 6 = 0x1A ∧ g 7 = 0x0A ∧
         be32 g 8 = 13 ∧
         g 12 = 0x49 ∧ g 13 = 0x48 ∧ g 14 = 0x44 ∧ g 15 = 0x52 ∧
         (0 < be32 g 16 ∧ be32 g 16 ≤ 256) ∧ (0 < be32 g 20 ∧ be32 g 20 ≤ 256) then
        match colorFactor (g 25).val with
        | none => .ignore
        | some k =>
          if k * (g 24).val ≤ 32 then .accept (be32 g 16) (be32 g 20) (k * (g 24).val)
          else .ignore
      else .ignore := by
  have hmod : ∀ k, colorFactor (g 25).val = some k →
      u16 (k * (g 24).val) = k * (g 24).val := by
    intro k hk
    unfold u16
    have := colorFactor_le _ _ hk
    have := (g 24).isLt
    apply Nat.mod_eq_of_lt
    nlinarith
  simp only [inspect, png, hrd 0 (by decide), hrd 1 (by decide), hrd 2 (by decide),
    hrd 3 (by decide), hrd 4 (by decide), hrd 5 (by decide), hrd 6 (by decide),
    hrd 7 (by decide), hrd 8 (by decide), hrd 9 (by decide), hrd 10 (by decide),
    hrd 11 (by decide), hrd 12 (by decide), hrd 13 (by decide), hrd 14 (by decide),
    hrd 15 (by decide), hrd 16 (by decide), hrd 17 (by decide), hrd 18 (by decide),
    hrd 19 (by decide), hrd 20 (by decide), hrd 21 (by decide), hrd 22 (by decide),
    hrd 23 (by decide), hrd 24 (by decide), hrd 25 (by decide), mapBE32_load32, load32_inj,
    ne_eq, be32]
  rcases hc : colorFactor (g 25).val with _ | k
  · split_ifs <;> rfl
  · simp only [hmod k hc]
    split_ifs <;> first | rfl | (exfalso; tauto)

theorem readBuf_eq_bufAt (buf : List Byte) (k : Nat) (h : k < buf.length) :
    readBuf buf k = some (bufAt buf k) := by
  simp [readBuf, bufAt, List.getD, List.getElem?_eq_getElem h]

theorem take8_eq_iff (buf : List Byte) (hlen : 8 ≤ buf.length) (a0 a1 a2 a3 a4 a5 a6 a7 : Byte) :
    buf.take 8 = [a0, a1, a2, a3, a4, a5, a6, a7] ↔
      (bufAt buf 0 = a0 ∧ bufAt buf 1 = a1 ∧ bufAt buf 2 = a2 ∧ bufAt buf 3 = a3 ∧
       bufAt buf 4 = a4 ∧ bufAt buf 5 = a5 ∧ bufAt buf 6 = a6 ∧ bufAt buf 7 = a7) := by
  rcases buf with _ | ⟨b0, _ | ⟨b1, _ | ⟨b2, _ | ⟨b3, _ | ⟨b4, _ | ⟨b5, _ | ⟨b6, _ | ⟨b7, rest⟩⟩⟩⟩⟩⟩⟩⟩ <;>
    first | (simp at hlen; done) | simp [bufAt]

theorem drop12_take4_eq_iff (buf : List Byte) (hlen : 16 ≤ buf.length) (a0 a1 a2 a3 : Byte) :
    (buf.drop 12).take 4 = [a0, a1, a2, a3] ↔
      (bufAt buf 12 = a0 ∧ bufAt buf 13 = a1 ∧ bufAt buf 14 = a2 ∧ bufAt buf 15 = a3) := by
  rcases buf with _ | ⟨b0, _ | ⟨b1, _ | ⟨b2, _ | ⟨b3, _ | ⟨b4, _ | ⟨b5, _ | ⟨b6, _ | ⟨b7,
    _ | ⟨b8, _ | ⟨b9, _ | ⟨b10, _ | ⟨b11, _ | ⟨b12, _ | ⟨b13, _ | ⟨b14, _ | ⟨b15, rest⟩⟩⟩⟩⟩⟩⟩⟩⟩⟩⟩⟩⟩⟩⟩⟩ <;>
    first | (simp at hlen; done) | simp [bufAt]

/-! ## Reading a file into `icodat` -/

/-- A call of `read` that returns `st.st_size` has stored the whole file. -/
theorem readData_of_whole (f : PngFile) (hr : f.readRet = some f.st_size) :
    f.readData = f.data := by
  unfold PngFile.readData
  rw [hr]
  exact List.take_length f.data

/-- A call of `read` stores at most `st.st_size` bytes. -/
theorem length_readData_le (f : PngFile) : f.readData.length ≤ f.st_size := by
  unfold PngFile.readData PngFile.st_size
  cases f.readRet with
  | none => exact Nat.zero_le _
  | some n =>
    simp only [List.length_take]
    exact Nat.min_le_right _ _

theorem peek_poke (icodat : Nat → Byte) (datcap offset : Nat) (data : List Byte) (k : Nat)
    (hk : k < data.length) (hcap : offset + data.length ≤ datcap) :
    peek (poke icodat offset data) datcap offset k = some (bufAt data k) := by
  have h1 : offset + k < datcap := by omega
  have h2 : ¬ (offset + k < offset) := by omega
  simp [peek, poke, h1, h2, bufAt, List.getD, List.getElem?_eq_getElem hk]

/-- A file of at least 26 bytes that fits into the allocation is judged on its
own bytes. -/
theorem inspect_peek_poke (host : Host) (icodat : Nat → Byte) (datcap offset : Nat)
    (data : List Byte) (h26 : 26 ≤ data.length) (hcap : offset + data.length ≤ datcap) :
    inspect host (peek (poke icodat offset data) datcap offset) =
      inspect host (readBuf data) := by
  rw [inspect_of_reads host _ (bufAt data)
      (fun k hk => peek_poke icodat datcap offset data k (by omega) hcap),
    inspect_of_reads host _ (bufAt data) (fun k hk => readBuf_eq_bufAt data k (by omega))]

/-- The loop body on a file of at least 26 bytes whose own header passes the
checks, when the file fits into the allocation. -/
theorem visit_of_accept (host : Host) (s : Packer) (f : PngFile) (w h d : Nat)
    (hl : f.lstatOk = true) (ho : f.openOk = true) (hsz : f.st_size ≤ UINT32_MAX)
    (h26 : 26 ≤ f.data.length) (hacc : inspect host (readBuf f.data) = .accept w h d)
    (hcap : s.offset + f.st_size ≤
      (if s.offset + f.st_size < s.bufsiz then s.datcap else s.bufsiz + f.st_size + 1048576))
    (hdir : s.count < (if s.count < s.dircnt then s.dircnt else u32 (s.dircnt + 10)))
    (hr : f.readRet = some f.st_size) :
    visit host s f = some { s with
      dircnt := if s.count < s.dircnt then s.dircnt else u32 (s.dircnt + 10)
      datcap := if s.offset + f.st_size < s.bufsiz then s.datcap
        else s.bufsiz + f.st_size + 1048576
      icodat := poke s.icodat s.offset f.data
      entry := s.entry ++ [newEntry host w h d f.st_size s.offset]
      count := u32 (s.count + 1)
      offset := u32 (s.offset + f.st_size) } := by
  unfold visit
  rw [if_pos ⟨hl, hsz, ho⟩]
  simp only []
  rw [readData_of_whole f hr, if_pos (show s.offset + f.data.length ≤ _ from hcap), if_pos hr,
    inspect_peek_poke host _ _ _ _ h26 hcap, hacc]
  simp only []
  rw [if_pos hdir]

/-- Packing `n` copies of a file that is accepted on its own, while the payload
stays below 2 MiB and the count below the loop bound. -/
theorem scan_replicate (host : Host) (f : PngFile) (w h d : Nat)
    (hl : f.lstatOk = true) (ho : f.openOk = true) (hr : f.readRet = some f.st_size)
    (h26 : 26 ≤ f.data.length) (hacc : inspect host (readBuf f.data) = .accept w h d) :
    ∀ (n : Nat) (s : Packer), s.bufsiz = 1048576 → 1048576 ≤ s.datcap →
      s.offset ≤ s.datcap → s.count ≤ s.dircnt → s.dircnt ≤ s.count + 10 →
      s.count + n ≤ 65536 → s.offset + n * f.st_size ≤ 2097152 →
      ∃ s1, scan host s (List.replicate n f) = some s1 ∧
        s1.count = s.count + n ∧ s1.offset = s.offset + n * f.st_size ∧
        s1.entry.length = s.entry.length + n ∧
        s1.reserved = s.reserved ∧ s1.filetype = s.filetype ∧
        s1.offset ≤ s1.datcap ∧
        (∀ i, i < s.offset → s1.icodat i = s.icodat i) := by
  intro n
  induction n with
  | zero =>
    intro s _ _ hd _ _ _ _
    exact ⟨s, by simp [scan], by simp, by simp, by simp, rfl, rfl, hd, fun _ _ => rfl⟩
  | succ n ih =>
    intro s hb hd hod hc1 hc2 hcnt hoff
    have hmul : (n + 1) * f.st_size = n * f.st_size + f.st_size := by ring
    have hsz : f.st_size ≤ UINT32_MAX := by unfold UINT32_MAX; omega
    have hcap : s.offset + f.st_size ≤
        (if s.offset + f.st_size < s.bufsiz then s.datcap
          else s.bufsiz + f.st_size + 1048576) := by
      split_ifs <;> omega
    have hdir : s.count < (if s.count < s.dircnt then s.dircnt else u32 (s.dircnt + 10)) := by
      unfold u32
      split_ifs <;> omega
    have hv := visit_of_accept host s f w h d hl ho hsz h26 hacc hcap hdir hr
    have hu1 : u32 (s.count + 1) = s.count + 1 := by unfold u32; omega
    have hu2 : u32 (s.offset + f.st_size) = s.offset + f.st_size := by unfold u32; omega
    rw [hu1, hu2] at hv
    obtain ⟨s', hv', e1, e2, e3, e4, e5, e6, e7, e8, e9⟩ : ∃ s', visit host s f = some s' ∧
        s'.bufsiz = s.bufsiz ∧ s'.count = s.count + 1 ∧ s'.offset = s.offset + f.st_size ∧
        s'.dircnt = (if s.count < s.dircnt then s.dircnt else u32 (s.dircnt + 10)) ∧
        s'.datcap = (if s.offset + f.st_size < s.bufsiz then s.datcap
          else s.bufsiz + f.st_size + 1048576) ∧
        s'.entry = s.entry ++ [newEntry host w h d f.st_size s.offset] ∧
        s'.reserved = s.reserved ∧ s'.filetype = s.filetype ∧
        s'.icodat = poke s.icodat s.offset f.data :=
      ⟨_, hv, rfl, rfl, rfl, rfl, rfl, rfl, rfl, rfl, rfl⟩
    rw [List.replicate_succ, scan, if_pos (by unfold UINT16_MAX; omega), hv']
    obtain ⟨s1, h1, h2, h3, h4, h5, h6, h7, h8⟩ := ih s'
      (by rw [e1]; exact hb)
      (by rw [e5]; split_ifs <;> omega)
      (by rw [e5, e3]; exact hcap)
      (by rw [e2, e4]; unfold u32; split_ifs <;> omega)
      (by rw [e2, e4]; unfold u32; split_ifs <;> omega)
      (by rw [e2]; omega)
      (by rw [e3]; omega)
    refine ⟨s1, h1, ?_, ?_, ?_, ?_, ?_, h7, ?_⟩
    · rw [h2, e2]; omega
    · rw [h3, e3]; omega
    · rw [h4, e6]; simp; omega
    · rw [h5, e7]
    · rw [h6, e8]
    · intro i hi
      rw [h8 i (by rw [e3]; omega), e9]
      simp [poke, hi]

/-! ## Stored fields are little-endian on either host -/

theorem store16_load16 (host : Host) (b0 b1 : Byte) :
    store16 host (load16 host b0 b1) = (b0, b1) := by
  cases host <;> simp only [store16, load16, byte, Prod.mk.injEq, Fin.ext_iff] <;> omega

theorem store32_load32 (host : Host) (b0 b1 b2 b3 : Byte) :
    store32 host (load32 host b0 b1 b2 b3) = (b0, b1, b2, b3) := by
  cases host <;> simp only [store32, load32, byte, Prod.mk.injEq, Fin.ext_iff] <;> omega

theorem store16_mapLE16 (host : Host) (x : Nat) :
    store16 host (mapLE16 host x) = (byte x, byte (x / 256)) := by
  cases host
  · rfl
  · simp only [mapLE16, SwapInt16, store16_load16]
    rfl

theorem store32_mapLE32 (host : Host) (x : Nat) :
    store32 host (mapLE32 host x) =
      (byte x, byte (x / 256), byte (x / 65536), byte (x / 16777216)) := by
  cases host
  · rfl
  · simp only [mapLE32, SwapInt32, store32_load32]
    rfl

theorem length_flatMap_bytes (host : Host) (l : List ICOEntry) :
    (l.flatMap (ICOEntry.bytes host)).length = 16 * l.length := by
  induction l with
  | nil => rfl
  | cons e l ih =>
    rw [List.flatMap_cons, List.length_append, ih]
    simp [ICOEntry.bytes]
    omega

theorem length_patchedEntries (host : Host) (s : Packer) :
    (patchedEntries host s).length = s.entry.length := by
  simp [patchedEntries]

/-- The directory as written when `dirsiz` covers all entries. -/
theorem icodirBytes_eq (host : Host) (s : Packer) (hlen : s.entry.length = s.count)
    (hcnt : s.count ≤ 65536) (hr : s.reserved = 0) (ht : s.filetype = mapLE16 host 1) :
    icodirBytes host s =
      [0, 0, 1, 0, byte (u16 s.count), byte (u16 s.count / 256)] ++
        (patchedEntries host s).flatMap (ICOEntry.bytes host) := by
  have hd : dirsiz s = 6 + 16 * s.count := by
    unfold dirsiz u32
    omega
  unfold icodirBytes
  simp only []
  rw [List.take_of_length_le]
  · rw [hr, ht, store16_mapLE16 host 1, store16_mapLE16 host _]
    cases host <;> rfl
  · rw [List.length_append, length_flatMap_bytes, length_patchedEntries, hlen, hd]
    simp

theorem st_size_tinyPng : tinyPng.st_size = 26 := rfl

theorem inspect_tinyHeader (host : Host) :
    inspect host (readBuf tinyHeader) = .accept 1 1 32 := by
  cases host <;> decide

@[simp] theorem init_count (host : Host) (g : Nat → Byte) : (Packer.init host g).count = 0 := rfl

@[simp] theorem init_offset (host : Host) (g : Nat → Byte) : (Packer.init host g).offset = 0 := rfl

@[simp] theorem init_dircnt (host : Host) (g : Nat → Byte) : (Packer.init host g).dircnt = 10 := rfl

@[simp] theorem init_bufsiz (host : Host) (g : Nat → Byte) :
    (Packer.init host g).bufsiz = 1048576 := rfl

@[simp] theorem init_datcap (host : Host) (g : Nat → Byte) :
    (Packer.init host g).datcap = 1048576 := rfl

@[simp] theorem init_entry (host : Host) (g : Nat → Byte) : (Packer.init host g).entry = [] := rfl

@[simp] theorem init_reserved (host : Host) (g : Nat → Byte) :
    (Packer.init host g).reserved = 0 := rfl

@[simp] theorem init_filetype (host : Host) (g : Nat → Byte) :
    (Packer.init host g).filetype = mapLE16 host 1 := rfl

@[simp] theorem init_icodat (host : Host) (g : Nat → Byte) : (Packer.init host g).icodat = g := rfl

/-- The run on 65536 copies of `tinyPng`. -/
theorem scan_65536 (host : Host) (garbage : Nat → Byte) :
    ∃ s, scan host (Packer.init host garbage) (List.replicate 65536 tinyPng) = some s ∧
      s.count = 65536 ∧ s.offset = 1703936 ∧ s.entry.length = 65536 ∧
      s.reserved = 0 ∧ s.filetype = mapLE16 host 1 ∧ s.offset ≤ s.datcap := by
  obtain ⟨s, h1, h2, h3, h4, h5, h6, h7, -⟩ := scan_replicate host tinyPng 1 1 32 rfl rfl rfl
    (by decide) (inspect_tinyHeader host) 65536 (Packer.init host garbage) (by simp) (by simp)
    (by simp) (by simp) (by simp) (by simp) (by simp [st_size_tinyPng])
  simp only [init_count, init_offset, init_entry, init_reserved, init_filetype,
    st_size_tinyPng, List.length_nil, Nat.zero_add, Nat.reduceMul] at h2 h3 h4 h5 h6
  exact ⟨s, h1, h2, h3, h4, h5, h6, h7⟩

/-! ## The payload bytes after a read -/

/-- The first `n` bytes of `icodat` after `data` was read at `offset`. -/
theorem map_range_poke (icodat : Nat → Byte) (offset : Nat) (data : List Byte) (n : Nat)
    (hn : n ≤ offset + data.length) :
    (List.range n).map (poke icodat offset data) =
      (List.range (min n offset)).map icodat ++ data.take (n - offset) := by
  apply List.ext_getElem
  · simp
    omega
  · intro i h1 h2
    simp only [List.length_map, List.length_range] at h1
    rw [List.getElem_map, List.getElem_range]
    by_cases hi : i < offset
    · rw [List.getElem_append_left (by simp; omega)]
      simp [poke, hi]
    · rw [List.getElem_append_right (by simp; omega)]
      have h3 : i - offset < data.length := by omega
      simp [poke, hi, List.getElem?_eq_getElem h3]
      congr 1
      omega

/-- Fields of the state after the loop body accepted a file; see `visit_of_accept`. -/
theorem visit_fields (host : Host) (s : Packer) (f : PngFile) (w h d : Nat)
    (hl : f.lstatOk = true) (ho : f.openOk = true) (hsz : f.st_size ≤ UINT32_MAX)
    (h26 : 26 ≤ f.data.length) (hacc : inspect host (readBuf f.data) = .accept w h d)
    (hcap : s.offset + f.st_size ≤
      (if s.offset + f.st_size < s.bufsiz then s.datcap else s.bufsiz + f.st_size + 1048576))
    (hdir : s.count < (if s.count < s.dircnt then s.dircnt else u32 (s.dircnt + 10)))
    (hr : f.readRet = some f.st_size) :
    ∃ s1, visit host s f = some s1 ∧
      s1.bufsiz = s.bufsiz ∧ s1.count = u32 (s.count + 1) ∧
      s1.offset = u32 (s.offset + f.st_size) ∧
      s1.dircnt = (if s.count < s.dircnt then s.dircnt else u32 (s.dircnt + 10)) ∧
      s1.datcap = (if s.offset + f.st_size < s.bufsiz then s.datcap
        else s.bufsiz + f.st_size + 1048576) ∧
      s1.entry = s.entry ++ [newEntry host w h d f.st_size s.offset] ∧
      s1.reserved = s.reserved ∧ s1.filetype = s.filetype ∧
      s1.icodat = poke s.icodat s.offset f.data :=
  ⟨_, visit_of_accept host s f w h d hl ho hsz h26 hacc hcap hdir hr,
    rfl, rfl, rfl, rfl, rfl, rfl, rfl, rfl, rfl⟩

theorem readBuf_append_left (p rest : List Byte) (k : Nat) (hk : k < p.length) :
    readBuf (p ++ rest) k = some (bufAt p k) := by
  simp [readBuf, bufAt, List.getD, List.getElem?_append_left hk, List.getElem?_eq_getElem hk]

/-- Only the first 26 bytes of a buffer are inspected. -/
theorem inspect_readBuf_append (host : Host) (p rest : List Byte) (hp : 26 ≤ p.length) :
    inspect host (readBuf (p ++ rest)) = inspect host (readBuf p) := by
  rw [inspect_of_reads host _ (bufAt p) (fun k hk => readBuf_append_left p rest k (by omega)),
    inspect_of_reads host _ (bufAt p) (fun k hk => readBuf_eq_bufAt p k (by omega))]

/-! ## Scanning in two parts -/

theorem scan_of_full (host : Host) (s : Packer) (files : List PngFile)
    (h : ¬ s.count ≤ UINT16_MAX) : scan host s files = some s := by
  cases files with
  | nil => rfl
  | cons f fs => rw [scan, if_neg h]

theorem scan_append (host : Host) (l1 l2 : List PngFile) :
    ∀ s, scan host s (l1 ++ l2) =
      match scan host s l1 with
      | none => none
      | some s1 => scan host s1 l2 := by
  induction l1 with
  | nil => intro s; rfl
  | cons f fs ih =>
    intro s
    by_cases hc : s.count ≤ UINT16_MAX
    · rw [List.cons_append, scan, scan, if_pos hc, if_pos hc]
      cases visit host s f with
      | none => rfl
      | some s1 => exact ih s1
    · rw [scan_of_full host s _ hc, scan_of_full host s _ hc]
      exact (scan_of_full host s _ hc).symm

/-- The bytes of an entry built by `newEntry` and patched in the wrapping-up
stage are little-endian on either host. -/
theorem bytes_patched_newEntry (host : Host) (w h d sz off x : Nat) :
    ICOEntry.bytes host
        { newEntry host w h d sz off with imageoffset := mapLE32 host x } =
      [byte (u8 (if w ≠ 256 then w else 0)), byte (u8 (if h ≠ 256 then h else 0)), 0, 0,
       1, 0, byte d, byte (d / 256),
       byte (u32 sz), byte (u32 sz / 256), byte (u32 sz / 65536), byte (u32 sz / 16777216),
       byte x, byte (x / 256), byte (x / 65536), byte (x / 16777216)] := by
  simp only [ICOEntry.bytes, newEntry, store16_mapLE16, store32_mapLE32]
  rfl

theorem imageoffset_newEntry (host : Host) (w h d sz off : Nat) :
    (newEntry host w h d sz off).imageoffset = off := rfl

/-! ## What one pass of the loop body can do -/

/-- The three ways the loop body leaves a state: untouched (the file could not
be opened), with the bytes that `read` transferred stored but no entry, or with
one entry appended. -/
theorem visit_cases (host : Host) (s s1 : Packer) (f : PngFile)
    (hv : visit host s f = some s1) :
    s1 = s ∨
    (s.offset + f.readData.length ≤ s1.datcap ∧
      s1 = { s with
        dircnt := if s.count < s.dircnt then s.dircnt else u32 (s.dircnt + 10)
        datcap := if s.offset + f.st_size < s.bufsiz then s.datcap
          else s.bufsiz + f.st_size + 1048576
        icodat := poke s.icodat s.offset f.readData }) ∨
    (∃ w h d, s.offset + f.st_size ≤ s1.datcap ∧ s.count < s1.dircnt ∧
      s1 = { s with
        dircnt := if s.count < s.dircnt then s.dircnt else u32 (s.dircnt + 10)
        datcap := if s.offset + f.st_size < s.bufsiz then s.datcap
          else s.bufsiz + f.st_size + 1048576
        icodat := poke s.icodat s.offset f.data
        entry := s.entry ++ [newEntry host w h d f.st_size s.offset]
        count := u32 (s.count + 1)
        offset := u32 (s.offset + f.st_size) }) := by
  unfold visit at hv
  by_cases h1 : f.lstatOk = true ∧ f.st_size ≤ UINT32_MAX ∧ f.openOk = true
  · rw [if_pos h1] at hv
    simp only [] at hv
    by_cases h2 : s.offset + f.readData.length ≤
        (if s.offset + f.st_size < s.bufsiz then s.datcap else s.bufsiz + f.st_size + 1048576)
    · rw [if_pos h2] at hv
      by_cases hr : f.readRet = some f.st_size
      · rw [if_pos hr] at hv
        have hd := readData_of_whole f hr
        rw [hd] at hv h2
        generalize inspect host _ = v at hv
        cases v with
        | undefined => simp at hv
        | ignore =>
          simp only [Option.some.injEq] at hv
          subst hv
          exact Or.inr (Or.inl ⟨by rw [hd]; exact h2, by rw [hd]⟩)
        | accept w h d =>
          simp only [] at hv
          by_cases h3 : s.count < (if s.count < s.dircnt then s.dircnt else u32 (s.dircnt + 10))
          · rw [if_pos h3] at hv
            simp only [Option.some.injEq] at hv
            subst hv
            exact Or.inr (Or.inr ⟨w, h, d, h2, h3, rfl⟩)
          · rw [if_neg h3] at hv
            simp at hv
      · rw [if_neg hr] at hv
        simp only [Option.some.injEq] at hv
        subst hv
        exact Or.inr (Or.inl ⟨h2, rfl⟩)
    · rw [if_neg h2] at hv
      simp at hv
  · rw [if_neg h1] at hv
    simp only [Option.some.injEq] at hv
    exact Or.inl hv.symm

/-- An entry is appended only for a file that `read` delivered whole. -/
theorem visit_read_whole (host : Host) (s s1 : Packer) (f : PngFile)
    (hv : visit host s f = some s1) (hacc : s1.entry.length ≠ s.entry.length) :
    f.readRet = some f.st_size := by
  by_contra hr
  unfold visit at hv
  by_cases h1 : f.lstatOk = true ∧ f.st_size ≤ UINT32_MAX ∧ f.openOk = true
  · rw [if_pos h1] at hv
    simp only [] at hv
    by_cases h2 : s.offset + f.readData.length ≤
        (if s.offset + f.st_size < s.bufsiz then s.datcap else s.bufsiz + f.st_size + 1048576)
    · rw [if_pos h2, if_neg hr] at hv
      simp only [Option.some.injEq] at hv
      subst hv
      exact hacc rfl
    · rw [if_neg h2] at hv
      cases hv
  · rw [if_neg h1] at hv
    simp only [Option.some.injEq] at hv
    subst hv
    exact hacc rfl

/-- The count never passes 65536, the value at which the loop guard
`count <= UINT16_MAX` first fails. -/
theorem scan_count_le (host : Host) (files : List PngFile) :
    ∀ s s1, s.count ≤ 65536 → scan host s files = some s1 → s1.count ≤ 65536 := by
  induction files with
  | nil =>
    intro s s1 hc hs
    cases hs
    exact hc
  | cons f fs ih =>
    intro s s1 hc hs
    rw [scan] at hs
    split_ifs at hs with hg
    · split at hs
      · cases hs
      · rename_i s2 hv
        refine ih s2 s1 ?_ hs
        unfold UINT16_MAX at hg
        rcases visit_cases host s s2 f hv with h | ⟨-, h⟩ | ⟨w, h, d, -, -, h⟩
        · rw [h]; exact hc
        · rw [h]; exact hc
        · rw [h]
          show u32 (s.count + 1) ≤ 65536
          unfold u32
          omega
    · cases hs
      exact hc

/-- The list `entry` holds exactly `count` entries, so appending to it is the
store `icodir->entry[count++]`. -/
theorem scan_entry_length (host : Host) (files : List PngFile) :
    ∀ s s1, s.count ≤ 65536 → s.entry.length = s.count → scan host s files = some s1 →
      s1.entry.length = s1.count := by
  induction files with
  | nil =>
    intro s s1 _ hl hs
    cases hs
    exact hl
  | cons f fs ih =>
    intro s s1 hc hl hs
    rw [scan] at hs
    split_ifs at hs with hg
    · split at hs
      · cases hs
      · rename_i s2 hv
        unfold UINT16_MAX at hg
        rcases visit_cases host s s2 f hv with h | ⟨-, h⟩ | ⟨w, h, d, -, -, h⟩
        · rw [h] at hs; exact ih s s1 hc hl hs
        · refine ih s2 s1 ?_ ?_ hs
          · rw [h]; exact hc
          · rw [h]; exact hl
        · refine ih s2 s1 ?_ ?_ hs
          · rw [h]
            show u32 (s.count + 1) ≤ 65536
            unfold u32
            omega
          · rw [h]
            show (s.entry ++ [_]).length = u32 (s.count + 1)
            rw [List.length_append, hl]
            unfold u32
            simp
            omega
    · cases hs
      exact hl

/-! ## Files shorter than the 26 inspected bytes -/

/-- The loop body on a file of at least 26 bytes whose own header fails the
checks: the file is read into `icodat+offset` and nothing else changes but the
capacities. -/
theorem visit_of_ignore (host : Host) (s : Packer) (f : PngFile)
    (hl : f.lstatOk = true) (ho : f.openOk = true) (hsz : f.st_size ≤ UINT32_MAX)
    (h26 : 26 ≤ f.data.length) (hign : inspect host (readBuf f.data) = .ignore)
    (hcap : s.offset + f.st_size ≤
      (if s.offset + f.st_size < s.bufsiz then s.datcap else s.bufsiz + f.st_size + 1048576))
    (hr : f.readRet = some f.st_size) :
    ∃ s1, visit host s f = some s1 ∧
      s1.bufsiz = s.bufsiz ∧ s1.count = s.count ∧ s1.offset = s.offset ∧
      s1.dircnt = (if s.count < s.dircnt then s.dircnt else u32 (s.dircnt + 10)) ∧
      s1.datcap = (if s.offset + f.st_size < s.bufsiz then s.datcap
        else s.bufsiz + f.st_size + 1048576) ∧
      s1.entry = s.entry ∧ s1.reserved = s.reserved ∧ s1.filetype = s.filetype ∧
      s1.icodat = poke s.icodat s.offset f.data := by
  refine ⟨{ s with
      dircnt := if s.count < s.dircnt then s.dircnt else u32 (s.dircnt + 10)
      datcap := if s.offset + f.st_size < s.bufsiz then s.datcap
        else s.bufsiz + f.st_size + 1048576
      icodat := poke s.icodat s.offset f.data }, ?_, rfl, rfl, rfl, rfl, rfl, rfl, rfl, rfl, rfl⟩
  unfold visit
  rw [if_pos ⟨hl, hsz, ho⟩]
  simp only []
  rw [readData_of_whole f hr, if_pos (show s.offset + f.data.length ≤ _ from hcap), if_pos hr,
    inspect_peek_poke host _ _ _ _ h26 hcap, hign]

/-- A file `d2` read over an earlier, longer file `d1` at the same offset is
judged on its own bytes followed by the bytes `d1` left behind. -/
theorem inspect_peek_poke_stale (host : Host) (icodat : Nat → Byte) (datcap offset : Nat)
    (d1 d2 : List Byte) (h1 : 26 ≤ d1.length) (h2 : d2.length ≤ d1.length)
    (hcap : offset + d1.length ≤ datcap) :
    inspect host (peek (poke (poke icodat offset d1) offset d2) datcap offset) =
      inspect host (readBuf (d2 ++ d1.drop d2.length)) := by
  have hlen : (d2 ++ d1.drop d2.length).length = d1.length := by
    rw [List.length_append, List.length_drop]
    omega
  rw [inspect_of_reads host (readBuf (d2 ++ d1.drop d2.length))
    (bufAt (d2 ++ d1.drop d2.length)) (fun k hk => readBuf_eq_bufAt _ k (by omega))]
  apply inspect_of_reads
  intro k hk
  have hk1 : k < d1.length := by omega
  have hc : offset + k < datcap := by omega
  have hn : ¬ (offset + k < offset) := by omega
  simp only [peek, poke, hc, hn, if_true, if_false, Nat.add_sub_cancel_left, bufAt, List.getD]
  by_cases hk2 : k < d2.length
  · simp [List.getElem?_eq_getElem hk2, List.getElem?_append_left hk2]
  · have hk3 : d2.length ≤ k := by omega
    have hk4 : d2.length + (k - d2.length) = k := by omega
    rw [List.get?_eq_getElem?, List.getElem?_eq_none hk3, List.getElem?_append_right hk3,
      List.getElem?_drop, hk4, List.getElem?_eq_getElem hk1]
    rfl

/-- The loop body on a file `f` of fewer than 26 bytes read over the bytes of a
longer file `f0` that an earlier pass left at `icodat+offset`. -/
theorem visit_of_stale_accept (host : Host) (s : Packer) (f0 f : PngFile) (m : Nat → Byte)
    (w h d : Nat)
    (hl : f.lstatOk = true) (ho : f.openOk = true)
    (hm : s.icodat = poke m s.offset f0.data)
    (h1 : 26 ≤ f0.data.length) (h2 : f.data.length ≤ f0.data.length)
    (hacc : inspect host (readBuf (f.data ++ f0.data.drop f.data.length)) = .accept w h d)
    (hfit : s.offset + f0.data.length < s.bufsiz) (hbuf : s.bufsiz ≤ s.datcap)
    (hdir : s.count < s.dircnt) (hsz : f.st_size ≤ UINT32_MAX)
    (hr : f.readRet = some f.st_size) :
    ∃ s1, visit host s f = some s1 ∧
      s1.count = u32 (s.count + 1) ∧ s1.offset = u32 (s.offset + f.st_size) ∧
      s1.datcap = s.datcap ∧
      s1.entry = s.entry ++ [newEntry host w h d f.st_size s.offset] ∧
      s1.reserved = s.reserved ∧ s1.filetype = s.filetype ∧
      s1.icodat = poke s.icodat s.offset f.data := by
  have hst : f.st_size = f.data.length := rfl
  have hlt : s.offset + f.st_size < s.bufsiz := by omega
  refine ⟨{ s with
      icodat := poke s.icodat s.offset f.data
      entry := s.entry ++ [newEntry host w h d f.st_size s.offset]
      count := u32 (s.count + 1)
      offset := u32 (s.offset + f.st_size) }, ?_, rfl, rfl, rfl, rfl, rfl, rfl, rfl⟩
  unfold visit
  rw [if_pos ⟨hl, hsz, ho⟩]
  simp only [if_pos hlt, if_pos hdir, readData_of_whole f hr, if_pos hr]
  rw [if_pos (by omega), hm,
    inspect_peek_poke_stale host m s.datcap s.offset f0.data f.data h1 h2 (by omega), hacc]

theorem inspect_deepPng (host : Host) : inspect host (readBuf deepPng.data) = .ignore := by
  cases host <;> decide

theorem inspect_badLengthPng (host : Host) :
    inspect host (readBuf badLengthPng.data) = .ignore := by
  cases host <;> decide

/-- The run on an ignored file `f0` of at least 26 bytes followed by a shorter
file `f` that passes the checks on its bytes completed by those of `f0`: one
entry, for `f`, and the bytes of `f` as payload. -/
theorem icopacker_stale (host : Host) (garbage : Nat → Byte) (f0 f : PngFile) (w h d : Nat)
    (hl0 : f0.lstatOk = true) (ho0 : f0.openOk = true)
    (hl : f.lstatOk = true) (ho : f.openOk = true)
    (h1 : 26 ≤ f0.data.length) (h2 : f.data.length ≤ f0.data.length)
    (hsmall : f0.data.length < 1048576) (hpos : 0 < f.data.length)
    (hign : inspect host (readBuf f0.data) = .ignore)
    (hacc : inspect host (readBuf (f.data ++ f0.data.drop f.data.length)) = .accept w h d)
    (hr0 : f0.readRet = some f0.st_size) (hr : f.readRet = some f.st_size) :
    icopacker host garbage [f0, f] true =
      .file ([0, 0, 1, 0, 1, 0] ++
        ICOEntry.bytes host { newEntry host w h d f.st_size 0 with
          imageoffset := mapLE32 host 22 } ++ f.data) := by
  have hst0 : f0.st_size = f0.data.length := rfl
  have hst : f.st_size = f.data.length := rfl
  obtain ⟨s1, hv1, a1, a2, a3, a4, a5, a6, a7, a8, a9⟩ :=
    visit_of_ignore host (Packer.init host garbage) f0 hl0 ho0
      (by unfold UINT32_MAX; omega) h1 hign
      (by rw [init_offset, init_bufsiz, init_datcap, if_pos (by omega)]; omega) hr0
  rw [init_bufsiz] at a1
  rw [init_count] at a2
  rw [init_offset] at a3
  rw [init_count, init_dircnt, if_pos (by decide)] at a4
  rw [init_offset, init_bufsiz, init_datcap, if_pos (by omega)] at a5
  rw [init_entry] at a6
  rw [init_reserved] at a7
  rw [init_filetype] at a8
  rw [init_icodat, init_offset, ← a3] at a9
  obtain ⟨s2, hv2, b1, b2, b3, b4, b5, b6, b7⟩ :=
    visit_of_stale_accept host s1 f0 f garbage w h d hl ho a9 h1 h2 hacc
      (by rw [a3, a1]; omega) (by rw [a1, a5]) (by rw [a2, a4]; decide)
      (by unfold UINT32_MAX; omega) hr
  have hu : u32 (0 + f.data.length) = f.data.length := by
    unfold u32
    omega
  rw [a2] at b1
  rw [a3, hst, hu] at b2
  rw [a5] at b3
  rw [a6, a3, List.nil_append] at b4
  rw [a7] at b5
  rw [a8] at b6
  rw [a3] at b7
  have hs : scan host (Packer.init host garbage) [f0, f] = some s2 := by
    rw [scan, if_pos (show (Packer.init host garbage).count ≤ UINT16_MAX from Nat.zero_le _), hv1]
    simp only []
    rw [scan, if_pos (by rw [a2]; decide), hv2]
    rfl
  have hb := icodirBytes_eq host s2 (by rw [b4, b1]; rfl) (by rw [b1]; decide) b5 b6
  have hp : (List.range f.data.length).map (poke s1.icodat 0 f.data) = f.data := by
    rw [map_range_poke _ _ _ _ (by omega)]
    simp
  unfold icopacker
  rw [hs]
  unfold wrapUp
  simp only []
  rw [if_pos ⟨by rw [b1]; decide, by rw [b2]; omega, trivial⟩, if_pos (by rw [b2, b3]; omega),
    hb, b2, b7, hp]
  simp only [patchedEntries, dirsiz, b1, b4, List.map_cons, List.map_nil, List.flatMap_cons,
    List.flatMap_nil, imageoffset_newEntry, List.append_nil]
  rfl

/-! ## Runs in which the running offset does not wrap -/

theorem accepted_cons (host : Host) (s s2 : Packer) (f : PngFile) (fs : List PngFile)
    (hg : s.count ≤ UINT16_MAX) (hv : visit host s f = some s2) :
    accepted host s (f :: fs) =
      if s2.entry.length = s.entry.length then accepted host s2 fs
      else f :: accepted host s2 fs := by
  rw [accepted, if_pos hg, hv]

theorem totalSize_cons (f : PngFile) (fs : List PngFile) :
    totalSize (f :: fs) = f.st_size + totalSize fs := by
  simp [totalSize]

/-- As long as the sizes of the accepted files do not carry the running offset
past 32 bits, the offset is their sum, the first `offset` bytes of `icodat` are
their contents in order, and the entries record their sizes and the offsets
at which they start. -/
theorem scan_good (host : Host) (files : List PngFile) :
    ∀ s s1, scan host s files = some s1 →
      s.offset + totalSize (accepted host s files) < 4294967296 →
      s1.offset = s.offset + totalSize (accepted host s files) ∧
      (List.range s1.offset).map s1.icodat =
        (List.range s.offset).map s.icodat ++ (accepted host s files).flatMap PngFile.data ∧
      s1.entry.map ICOEntry.imageoffset =
        s.entry.map ICOEntry.imageoffset ++
          offsetsFrom s.offset ((accepted host s files).map PngFile.st_size) ∧
      s1.entry.map ICOEntry.imagesize =
        s.entry.map ICOEntry.imagesize ++
          (accepted host s files).map (fun f => mapLE32 host f.st_size) := by
  induction files with
  | nil =>
    intro s s1 hs _
    cases hs
    simp [accepted, totalSize, offsetsFrom]
  | cons f fs ih =>
    intro s s1 hs hw
    rw [scan] at hs
    by_cases hg : s.count ≤ UINT16_MAX
    · rw [if_pos hg] at hs
      cases hv : visit host s f with
      | none => rw [hv] at hs; cases hs
      | some s2 =>
        rw [hv] at hs
        simp only [] at hs
        rw [accepted_cons host s s2 f fs hg hv] at hw ⊢
        rcases visit_cases host s s2 f hv with h | ⟨-, h⟩ | ⟨w, ht, d, -, -, h⟩
        · subst h
          rw [if_pos rfl] at hw ⊢
          exact ih s2 s1 hs hw
        · have e1 : s2.entry = s.entry := by rw [h]
          have e2 : s2.offset = s.offset := by rw [h]
          have e3 : s2.icodat = poke s.icodat s.offset f.readData := by rw [h]
          rw [if_pos (by rw [e1])] at hw ⊢
          obtain ⟨g1, g2, g3, g4⟩ := ih s2 s1 hs (by rw [e2]; exact hw)
          rw [e2] at g1 g2 g3
          rw [e1] at g3 g4
          refine ⟨g1, ?_, g3, g4⟩
          rw [g2, e3, map_range_poke _ _ _ _ (Nat.le_add_right _ _)]
          simp
        · have e1 : s2.entry = s.entry ++ [newEntry host w ht d f.st_size s.offset] := by rw [h]
          have e2 : s2.offset = u32 (s.offset + f.st_size) := by rw [h]
          have e3 : s2.icodat = poke s.icodat s.offset f.data := by rw [h]
          have hne : ¬ s2.entry.length = s.entry.length := by
            rw [e1, List.length_append]
            simp
          rw [if_neg hne] at hw ⊢
          rw [totalSize_cons] at hw ⊢
          have hu : u32 (s.offset + f.st_size) = s.offset + f.st_size := by
            unfold u32
            omega
          have hsz : u32 f.st_size = f.st_size := by
            unfold u32
            omega
          rw [hu] at e2
          obtain ⟨g1, g2, g3, g4⟩ := ih s2 s1 hs (by rw [e2]; omega)
          rw [e2] at g1 g2 g3
          rw [e1] at g3 g4
          refine ⟨by rw [g1]; omega, ?_, ?_, ?_⟩
          · rw [g2, e3, map_range_poke s.icodat s.offset f.data (s.offset + f.st_size) (Nat.le_refl _)]
            have hst : f.st_size = f.data.length := rfl
            simp [hst]
          · rw [g3]
            simp [offsetsFrom, newEntry]
          · rw [g4]
            simp [newEntry, hsz]
    · rw [if_neg hg] at hs
      cases hs
      simp [accepted, hg, totalSize, offsetsFrom]

/-- The header members written at line 262 are not touched by the scan. -/
theorem scan_header (host : Host) (files : List PngFile) :
    ∀ s s1, scan host s files = some s1 →
      s1.reserved = s.reserved ∧ s1.filetype = s.filetype := by
  induction files with
  | nil =>
    intro s s1 hs
    cases hs
    exact ⟨rfl, rfl⟩
  | cons f fs ih =>
    intro s s1 hs
    rw [scan] at hs
    split_ifs at hs with hg
    · split at hs
      · cases hs
      · rename_i s2 hv
        obtain ⟨h1, h2⟩ := ih s2 s1 hs
        rcases visit_cases host s s2 f hv with h | ⟨-, h⟩ | ⟨w, ht, d, -, -, h⟩ <;>
          rw [h] at h1 h2 <;> exact ⟨h1, h2⟩
    · cases hs
      exact ⟨rfl, rfl⟩

theorem offsetsFrom_bounds : ∀ (ns : List Nat) (o x : Nat),
    x ∈ offsetsFrom o ns → o ≤ x ∧ x ≤ o + ns.sum := by
  intro ns
  induction ns with
  | nil => intro o x hx; simp [offsetsFrom] at hx
  | cons n ns ih =>
    intro o x hx
    simp only [offsetsFrom, List.mem_cons] at hx
    rw [List.sum_cons]
    rcases hx with rfl | hx
    · omega
    · have := ih (o + n) x hx
      omega

theorem offsetsFrom_add : ∀ (ns : List Nat) (a o : Nat),
    offsetsFrom (a + o) ns = (offsetsFrom o ns).map (fun x => a + x) := by
  intro ns
  induction ns with
  | nil => intro a o; rfl
  | cons n ns ih =>
    intro a o
    simp only [offsetsFrom, List.map_cons]
    rw [Nat.add_assoc, ih]

/-- Cutting the concatenated contents at the start position and size of the
`i`-th file gives back that file. -/
theorem slice_payload : ∀ (fs : List PngFile) (o i x : Nat) (f : PngFile),
    (offsetsFrom o (fs.map PngFile.st_size))[i]? = some x → fs[i]? = some f →
    o ≤ x ∧ ((fs.flatMap PngFile.data).drop (x - o)).take f.st_size = f.data := by
  intro fs
  induction fs with
  | nil => intro o i x f _ hf; simp at hf
  | cons f0 fs ih =>
    intro o i x f hx hf
    cases i with
    | zero =>
      simp only [List.map_cons, offsetsFrom, List.getElem?_cons_zero, Option.some.injEq] at hx hf
      subst hx
      subst hf
      simp [PngFile.st_size]
    | succ i =>
      simp only [List.map_cons, offsetsFrom, List.getElem?_cons_succ] at hx hf
      obtain ⟨h1, h2⟩ := ih (o + f0.st_size) i x f hx hf
      refine ⟨by omega, ?_⟩
      have hx2 : x - o = f0.data.length + (x - (o + f0.st_size)) := by
        have : f0.st_size = f0.data.length := rfl
        omega
      rw [List.flatMap_cons, hx2, List.drop_append]
      exact h2

theorem dirsiz_eq (s : Packer) (hc : s.count ≤ 65536) : dirsiz s = 6 + 16 * s.count := by
  unfold dirsiz u32
  omega

theorem length_icodirBytes (host : Host) (s : Packer) (hlen : s.entry.length = s.count)
    (hc : s.count ≤ 65536) : (icodirBytes host s).length = dirsiz s := by
  unfold icodirBytes
  simp only []
  rw [List.length_take, List.length_append, length_flatMap_bytes, length_patchedEntries, hlen,
    dirsiz_eq s hc]
  simp

/-- Offsets (support for C2). Without wraparound the finalized offset of every
entry is `dirsiz` plus the sizes of the files accepted before it, stored
little-endian. -/
theorem offsets_without_wrap (host : Host) (garbage : Nat → Byte) (files : List PngFile)
    (s : Packer) (hs : scan host (Packer.init host garbage) files = some s)
    (hw : dirsiz s + totalSize (accepted host (Packer.init host garbage) files) < 4294967296) :
    (patchedEntries host s).map ICOEntry.imageoffset =
      (offsetsFrom (dirsiz s)
        ((accepted host (Packer.init host garbage) files).map PngFile.st_size)).map
        (mapLE32 host) := by
  obtain ⟨-, -, g3, -⟩ := scan_good host files _ s hs (by rw [init_offset]; omega)
  rw [init_entry, init_offset, List.map_nil, List.nil_append] at g3
  have h0 := offsetsFrom_add
    ((accepted host (Packer.init host garbage) files).map PngFile.st_size) (dirsiz s) 0
  rw [Nat.add_zero] at h0
  rw [h0, List.map_map]
  unfold patchedEntries
  rw [List.map_map]
  have h1 : s.entry.map (ICOEntry.imageoffset ∘ fun e =>
        { e with imageoffset := mapLE32 host (u32 (dirsiz s + e.imageoffset)) }) =
      (s.entry.map ICOEntry.imageoffset).map (fun o => mapLE32 host (u32 (dirsiz s + o))) := by
    rw [List.map_map]
    rfl
  rw [h1, g3]
  apply List.map_congr_left
  intro x hx
  have hb := (offsetsFrom_bounds _ 0 x hx).2
  have ht : totalSize (accepted host (Packer.init host garbage) files) =
      ((accepted host (Packer.init host garbage) files).map PngFile.st_size).sum := rfl
  show mapLE32 host (u32 (dirsiz s + x)) = mapLE32 host (dirsiz s + x)
  unfold u32
  rw [Nat.mod_eq_of_lt (by omega)]

/-- Round trip (support for C3). Without wraparound, cutting the output at the
finalized offset and the size of an accepted file gives back the contents of
that file. -/
theorem roundtrip_without_wrap (host : Host) (garbage : Nat → Byte) (files : List PngFile)
    (icoOpenOk : Bool) (bytes : List Byte)
    (hout : icopacker host garbage files icoOpenOk = .file bytes)
    (hw : totalSize (accepted host (Packer.init host garbage) files) < 4294967296) :
    ∃ s, scan host (Packer.init host garbage) files = some s ∧
      ∀ (i x : Nat) (f : PngFile),
        (offsetsFrom (dirsiz s)
          ((accepted host (Packer.init host garbage) files).map PngFile.st_size))[i]? = some x →
        (accepted host (Packer.init host garbage) files)[i]? = some f →
        (bytes.drop x).take f.st_size = f.data := by
  unfold icopacker at hout
  cases hs : scan host (Packer.init host garbage) files with
  | none => rw [hs] at hout; cases hout
  | some s =>
    rw [hs] at hout
    refine ⟨s, rfl, ?_⟩
    intro i x f hx hf
    have hc := scan_count_le host files _ s (by rw [init_count]; decide) hs
    have hl := scan_entry_length host files _ s (by rw [init_count]; decide)
      (by rw [init_entry, init_count]; rfl) hs
    obtain ⟨-, g2, -, -⟩ := scan_good host files _ s hs (by rw [init_offset]; omega)
    rw [init_offset, List.range_zero, List.map_nil, List.nil_append] at g2
    simp only [wrapUp] at hout
    split_ifs at hout
    simp only [Outcome.file.injEq] at hout
    rw [g2] at hout
    obtain ⟨h1, h2⟩ := slice_payload _ _ i x f hx hf
    have hx2 : x = (icodirBytes host s).length + (x - dirsiz s) := by
      rw [length_icodirBytes host s hl hc]
      omega
    rw [← hout, hx2, List.drop_append]
    exact h2

/-- Layout (support for C1 and C5). Without wraparound and with at most 65535
accepted files, the output is the header with the number of accepted files,
the entries, and the contents of the accepted files in order. -/
theorem output_without_wrap (host : Host) (garbage : Nat → Byte) (files : List PngFile)
    (icoOpenOk : Bool) (bytes : List Byte)
    (hout : icopacker host garbage files icoOpenOk = .file bytes)
    (hw : totalSize (accepted host (Packer.init host garbage) files) < 4294967296)
    (hn : (accepted host (Packer.init host garbage) files).length ≤ 65535) :
    ∃ s, scan host (Packer.init host garbage) files = some s ∧
      s.count = (accepted host (Packer.init host garbage) files).length ∧
      (patchedEntries host s).length = (accepted host (Packer.init host garbage) files).length ∧
      bytes = [0, 0, 1, 0, byte s.count, byte (s.count / 256)] ++
        (patchedEntries host s).flatMap (ICOEntry.bytes host) ++
        (accepted host (Packer.init host garbage) files).flatMap PngFile.data := by
  unfold icopacker at hout
  cases hs : scan host (Packer.init host garbage) files with
  | none => rw [hs] at hout; cases hout
  | some s =>
    rw [hs] at hout
    have hc := scan_count_le host files _ s (by rw [init_count]; decide) hs
    have hl := scan_entry_length host files _ s (by rw [init_count]; decide)
      (by rw [init_entry, init_count]; rfl) hs
    obtain ⟨-, g2, -, g4⟩ := scan_good host files _ s hs (by rw [init_offset]; omega)
    rw [init_offset, List.range_zero, List.map_nil, List.nil_append] at g2
    rw [init_entry, List.map_nil, List.nil_append] at g4
    have hlen : s.entry.length = (accepted host (Packer.init host garbage) files).length := by
      have := congrArg List.length g4
      simpa using this
    have hcnt : s.count = (accepted host (Packer.init host garbage) files).length := by
      rw [← hl, hlen]
    have hr : s.reserved = 0 ∧ s.filetype = mapLE16 host 1 := scan_header host files _ s hs
    have hb := icodirBytes_eq host s hl hc hr.1 hr.2
    have hu : u16 s.count = s.count := by
      unfold u16
      omega
    refine ⟨s, rfl, hcnt, by rw [length_patchedEntries, hlen], ?_⟩
    simp only [wrapUp] at hout
    split_ifs at hout
    simp only [Outcome.file.injEq] at hout
    rw [← hout, g2, hb, hu]

/-- The three results above on `tinyPng`, `deepPng` (ignored), `samplePng`: their
hypotheses hold there, and 33 bytes from offset 64 of the 97 output bytes are
the second accepted file. -/
theorem without_wrap_sample :
    icopacker .little zeroed [tinyPng, deepPng, samplePng] true = .file sampleOutput ∧
    accepted .little (Packer.init .little zeroed) [tinyPng, deepPng, samplePng] =
      [tinyPng, samplePng] ∧
    (sampleOutput.drop 64).take 33 = samplePng.data ∧
    (∃ s, scan .little (Packer.init .little zeroed) [tinyPng, deepPng, samplePng] = some s ∧
      ∀ (i x : Nat) (f : PngFile),
        (offsetsFrom (dirsiz s)
          ((accepted .little (Packer.init .little zeroed)
            [tinyPng, deepPng, samplePng]).map PngFile.st_size))[i]? = some x →
        (accepted .little (Packer.init .little zeroed) [tinyPng, deepPng, samplePng])[i]? =
          some f →
        (sampleOutput.drop x).take f.st_size = f.data) :=
  ⟨by decide, by decide, by decide,
   roundtrip_without_wrap .little zeroed [tinyPng, deepPng, samplePng] true sampleOutput
     (by decide) (by decide)⟩

/-! ## Swapping twice -/

theorem load16_store16 (host : Host) (x : Nat) (hx : x < 65536) :
    load16 host (store16 host x).1 (store16 host x).2 = x := by
  cases host <;> simp only [store16, load16, byte] <;> omega

theorem load32_store32 (host : Host) (x : Nat) (hx : x < 4294967296) :
    load32 host (store32 host x).1 (store32 host x).2.1 (store32 host x).2.2.1
      (store32 host x).2.2.2 = x := by
  cases host <;> simp only [store32, load32, byte] <;> omega

theorem SwapInt16_SwapInt16 (host : Host) (x : Nat) (hx : x < 65536) :
    SwapInt16 host (SwapInt16 host x) = x := by
  unfold SwapInt16
  simp only [store16_load16]
  exact load16_store16 host x hx

theorem SwapInt32_SwapInt32 (host : Host) (x : Nat) (hx : x < 4294967296) :
    SwapInt32 host (SwapInt32 host x) = x := by
  unfold SwapInt32
  simp only [store32_load32]
  exact load32_store32 host x hx

/-! ## Runs that stay defined -/

/-- The header checks do not leave the buffer when its first 26 bytes are
inside the allocation. -/
theorem inspect_peek_defined (host : Host) (icodat : Nat → Byte) (datcap offset : Nat)
    (h : offset + 26 ≤ datcap) : inspect host (peek icodat datcap offset) ≠ .undefined := by
  rw [inspect_of_reads host _ (fun k => icodat (offset + k))
    (fun k hk => by simp only [peek]; rw [if_pos (by omega)])]
  split_ifs
  · split
    · simp
    · split_ifs <;> simp
  · simp

/-- The loop body is defined when the file and the 26 inspected bytes fit into
the allocation and the entry index is inside the directory. -/
theorem visit_defined (host : Host) (s : Packer) (f : PngFile)
    (hcap : s.offset + f.st_size ≤
      (if s.offset + f.st_size < s.bufsiz then s.datcap else s.bufsiz + f.st_size + 1048576))
    (hhdr : s.offset + 26 ≤
      (if s.offset + f.st_size < s.bufsiz then s.datcap else s.bufsiz + f.st_size + 1048576))
    (hdir : s.count < (if s.count < s.dircnt then s.dircnt else u32 (s.dircnt + 10))) :
    ∃ s1, visit host s f = some s1 := by
  have hle := length_readData_le f
  unfold visit
  by_cases h1 : f.lstatOk = true ∧ f.st_size ≤ UINT32_MAX ∧ f.openOk = true
  · rw [if_pos h1]
    simp only []
    rw [if_pos (by omega)]
    by_cases hr : f.readRet = some f.st_size
    · rw [if_pos hr]
      have hd := inspect_peek_defined host (poke s.icodat s.offset f.readData) _ s.offset hhdr
      generalize inspect host _ = v at hd
      cases v with
      | undefined => exact absurd rfl hd
      | ignore => exact ⟨_, rfl⟩
      | accept w h d =>
        simp only []
        rw [if_pos hdir]
        exact ⟨_, rfl⟩
    · rw [if_neg hr]
      exact ⟨_, rfl⟩
  · rw [if_neg h1]
    exact ⟨_, rfl⟩

/-- While nothing is accepted the run is defined and the state keeps count 0
and offset 0. -/
theorem scan_none_accepted (host : Host) (files : List PngFile) :
    ∀ s, s.count = 0 → s.offset = 0 → s.bufsiz = 1048576 → 1048576 ≤ s.datcap →
      0 < s.dircnt → accepted host s files = [] →
      ∃ s1, scan host s files = some s1 ∧ s1.count = 0 := by
  induction files with
  | nil =>
    intro s hc _ _ _ _ _
    exact ⟨s, rfl, hc⟩
  | cons f fs ih =>
    intro s hc ho hb hd hdc hacc
    have hg : s.count ≤ UINT16_MAX := by rw [hc]; exact Nat.zero_le _
    have hlt : s.count < s.dircnt := by rw [hc]; exact hdc
    obtain ⟨s2, hv⟩ := visit_defined host s f
      (by rw [ho, hb]; split_ifs <;> omega)
      (by rw [ho, hb]; split_ifs <;> omega)
      (by rw [if_pos hlt]; exact hlt)
    rw [accepted_cons host s s2 f fs hg hv] at hacc
    rw [scan, if_pos hg, hv]
    simp only []
    rcases visit_cases host s s2 f hv with h | ⟨-, h⟩ | ⟨w, ht, d, -, -, h⟩
    · subst h
      rw [if_pos rfl] at hacc
      exact ih s2 hc ho hb hd hdc hacc
    · have e1 : s2.entry = s.entry := by rw [h]
      rw [if_pos (by rw [e1])] at hacc
      refine ih s2 (by rw [h]; exact hc) (by rw [h]; exact ho) (by rw [h]; exact hb) ?_ ?_ hacc
      · rw [h]
        show 1048576 ≤ (if s.offset + f.st_size < s.bufsiz then s.datcap
          else s.bufsiz + f.st_size + 1048576)
        split_ifs <;> omega
      · rw [h]
        show 0 < (if s.count < s.dircnt then s.dircnt else u32 (s.dircnt + 10))
        rw [if_pos hlt]
        exact hdc
    · have e1 : s2.entry = s.entry ++ [newEntry host w ht d f.st_size s.offset] := by rw [h]
      rw [if_neg (by rw [e1, List.length_append]; simp)] at hacc
      cases hacc

/-! ## The effect of accepting one file -/

/-- The run on `tinyPng` alone. -/
theorem scan_tiny (host : Host) (garbage : Nat → Byte) :
    ∃ s, scan host (Packer.init host garbage) [tinyPng] = some s ∧
      s.count = 1 ∧ s.offset = 26 ∧ s.dircnt = 10 ∧ s.bufsiz = 1048576 ∧
      s.datcap = 1048576 ∧ s.entry = [newEntry host 1 1 32 26 0] := by
  obtain ⟨s1, hv1, a1, a2, a3, a4, a5, a6, -, -, -⟩ :=
    visit_fields host (Packer.init host garbage) tinyPng 1 1 32 rfl rfl
      (by rw [st_size_tinyPng]; decide) (by decide) (inspect_tinyHeader host)
      (by simp [st_size_tinyPng]) (by simp) rfl
  simp [st_size_tinyPng, u32] at a1 a2 a3 a4 a5 a6
  refine ⟨s1, ?_, a2, a3, a4, a1, a5, a6⟩
  rw [scan, if_pos (show (Packer.init host garbage).count ≤ UINT16_MAX from Nat.zero_le _), hv1]
  rfl

/-! ## The capacity of the payload buffer -/

theorem st_size_bigPng : bigPng.st_size = 3145728 := by
  have h : tinyHeader.length = 26 := rfl
  simp only [PngFile.st_size, bigPng, List.length_append, List.length_replicate, h,
    Nat.reduceAdd]

theorem inspect_bigPng (host : Host) :
    inspect host (readBuf bigPng.data) = .accept 1 1 32 := by
  show inspect host (readBuf (tinyHeader ++ List.replicate 3145702 0)) = _
  rw [inspect_readBuf_append host _ _ (by decide), inspect_tinyHeader]

/-- `bufsiz` is never assigned, and the allocation never falls below its first
size. -/
theorem scan_bufsiz (host : Host) (files : List PngFile) :
    ∀ s s1, scan host s files = some s1 → s.bufsiz = 1048576 → 1048576 ≤ s.datcap →
      s1.bufsiz = 1048576 ∧ 1048576 ≤ s1.datcap := by
  induction files with
  | nil =>
    intro s s1 hs hb hd
    cases hs
    exact ⟨hb, hd⟩
  | cons f fs ih =>
    intro s s1 hs hb hd
    rw [scan] at hs
    split_ifs at hs with hg
    · split at hs
      · cases hs
      · rename_i s2 hv
        have hd2 : 1048576 ≤ (if s.offset + f.st_size < s.bufsiz then s.datcap
            else s.bufsiz + f.st_size + 1048576) := by
          split_ifs <;> omega
        rcases visit_cases host s s2 f hv with h | ⟨-, h⟩ | ⟨w, ht, d, -, -, h⟩
        · rw [h] at hs
          exact ih s s1 hs hb hd
        · exact ih s2 s1 hs (by rw [h]; exact hb) (by rw [h]; exact hd2)
        · exact ih s2 s1 hs (by rw [h]; exact hb) (by rw [h]; exact hd2)
    · cases hs
      exact ⟨hb, hd⟩

/-- Capacity (support for C15). In a state reached from the start whose running
offset is at most 2097152, any file fits into the allocation it is read into. -/
theorem capacity_below_2MiB (host : Host) (garbage : Nat → Byte) (pre : List PngFile)
    (s : Packer) (hs : scan host (Packer.init host garbage) pre = some s)
    (ho : s.offset ≤ 2097152) (f : PngFile) :
    s.offset + f.st_size ≤
      (if s.offset + f.st_size < s.bufsiz then s.datcap
        else s.bufsiz + f.st_size + 1048576) := by
  obtain ⟨hb, hd⟩ := scan_bufsiz host pre _ s hs rfl (Nat.le_refl _)
  rw [hb]
  split_ifs <;> omega

theorem icopacker_of_scan_none (host : Host) (garbage : Nat → Byte) (files : List PngFile)
    (icoOpenOk : Bool) (h : scan host (Packer.init host garbage) files = none) :
    icopacker host garbage files icoOpenOk = .undefined := by
  unfold icopacker
  rw [h]

/-- The run on `bigPng` alone. -/
theorem scan_big (host : Host) (garbage : Nat → Byte) :
    ∃ s, scan host (Packer.init host garbage) [bigPng] = some s ∧
      s.count = 1 ∧ s.offset = 3145728 ∧ s.dircnt = 10 ∧ s.bufsiz = 1048576 ∧
      s.datcap = 5242880 := by
  obtain ⟨s1, hv1, a1, a2, a3, a4, a5, -, -, -, -⟩ :=
    visit_fields host (Packer.init host garbage) bigPng 1 1 32 rfl rfl
      (by rw [st_size_bigPng]; decide) (by rw [← PngFile.st_size, st_size_bigPng]; decide)
      (inspect_bigPng host)
      (by rw [init_offset, init_bufsiz, init_datcap, st_size_bigPng]; decide)
      (by rw [init_count, init_dircnt]; decide) (by rw [st_size_bigPng]; rfl)
  rw [init_bufsiz] at a1
  rw [init_count] at a2
  rw [init_offset, st_size_bigPng] at a3
  rw [init_count, init_dircnt] at a4
  rw [init_offset, init_bufsiz, init_datcap, st_size_bigPng] at a5
  have h2 : u32 (0 + 1) = 1 := by decide
  have h3 : u32 (0 + 3145728) = 3145728 := by decide
  have h4 : (if 0 < 10 then 10 else u32 (10 + 10)) = 10 := by decide
  have h5 : (if 0 + 3145728 < 1048576 then 1048576 else 1048576 + 3145728 + 1048576) =
      5242880 := by decide
  rw [h2] at a2
  rw [h3] at a3
  rw [h4] at a4
  rw [h5] at a5
  refine ⟨s1, ?_, a2, a3, a4, a1, a5⟩
  rw [scan, if_pos (show (Packer.init host garbage).count ≤ UINT16_MAX from Nat.zero_le _), hv1]
  rfl

/-! ## The directory allocation -/

/-- One pass of the loop body keeps `count` inside the `dircnt` entries of the
directory allocation, and `dircnt` changes only by the step of line 276. -/
theorem visit_dircnt (host : Host) (s s1 : Packer) (f : PngFile)
    (hv : visit host s f = some s1) (hc : s.count ≤ 65536) (hi : s.count ≤ s.dircnt) :
    s1.count ≤ s1.dircnt ∧
    (s1.dircnt = s.dircnt ∨ (s.count = s.dircnt ∧ s1.dircnt = s.dircnt + 10)) := by
  have hd : (if s.count < s.dircnt then s.dircnt else u32 (s.dircnt + 10)) = s.dircnt ∨
      (s.count = s.dircnt ∧
        (if s.count < s.dircnt then s.dircnt else u32 (s.dircnt + 10)) = s.dircnt + 10) := by
    by_cases hlt : s.count < s.dircnt
    · rw [if_pos hlt]
      exact Or.inl rfl
    · rw [if_neg hlt]
      refine Or.inr ⟨by omega, ?_⟩
      unfold u32
      omega
  rcases visit_cases host s s1 f hv with h | ⟨-, h⟩ | ⟨w, h, d, -, hlt, h⟩
  · rw [h]
    exact ⟨hi, Or.inl rfl⟩
  · rw [h]
    refine ⟨?_, hd⟩
    show s.count ≤ (if s.count < s.dircnt then s.dircnt else u32 (s.dircnt + 10))
    rcases hd with hd | ⟨-, hd⟩ <;> rw [hd] <;> omega
  · have hlt1 : s.count < (if s.count < s.dircnt then s.dircnt else u32 (s.dircnt + 10)) := by
      rw [h] at hlt
      exact hlt
    rw [h]
    refine ⟨?_, hd⟩
    show u32 (s.count + 1) ≤ (if s.count < s.dircnt then s.dircnt else u32 (s.dircnt + 10))
    have hu : u32 (s.count + 1) = s.count + 1 := by
      unfold u32
      omega
    rw [hu]
    exact hlt1

/-- Along the loop `count` stays inside the directory allocation. -/
theorem scan_dircnt (host : Host) (files : List PngFile) :
    ∀ s s1, s.count ≤ 65536 → s.count ≤ s.dircnt → scan host s files = some s1 →
      s1.count ≤ s1.dircnt := by
  induction files with
  | nil =>
    intro s s1 _ hi hs
    cases hs
    exact hi
  | cons f fs ih =>
    intro s s1 hc hi hs
    have hs0 := hs
    rw [scan] at hs
    split_ifs at hs with hg
    · split at hs
      · cases hs
      · rename_i s2 hv
        refine ih s2 s1 ?_ (visit_dircnt host s s2 f hv hc hi).1 hs
        have h1 : scan host s [f] = some s2 := by
          rw [scan, if_pos hg, hv]
          rfl
        exact scan_count_le host [f] s s2 hc h1
    · cases hs
      exact hi

/-- The state before any iteration of the loop, started from the initial
state, has its `count` inside the directory allocation and below 65537. -/
theorem scan_init_dircnt (host : Host) (garbage : Nat → Byte) (files : List PngFile)
    (s : Packer) (hs : scan host (Packer.init host garbage) files = some s) :
    s.count ≤ s.dircnt ∧ s.count ≤ 65536 := by
  have h0 : (Packer.init host garbage).count ≤ 65536 := by
    rw [init_count]
    exact Nat.zero_le _
  have h1 : (Packer.init host garbage).count ≤ (Packer.init host garbage).dircnt := by
    rw [init_count]
    exact Nat.zero_le _
  exact ⟨scan_dircnt host files _ s h0 h1 hs, scan_count_le host files _ s h0 hs⟩

/-! ## Runs in which no call of `read` returns 4 GiB - 2 MiB or more -/

/-- A pass that stores an entry read the file whole, at an offset of at most
2 MiB, and is the third case of `visit_cases`. -/
theorem visit_accept_offset (host : Host) (s s1 : Packer) (f : PngFile)
    (hv : visit host s f = some s1) (hacc : s1.entry.length ≠ s.entry.length)
    (hb : s.bufsiz = 1048576) :
    f.readRet = some f.st_size ∧ s.offset ≤ 2097152 ∧
    ∃ w h d, s1 = { s with
        dircnt := if s.count < s.dircnt then s.dircnt else u32 (s.dircnt + 10)
        datcap := if s.offset + f.st_size < s.bufsiz then s.datcap
          else s.bufsiz + f.st_size + 1048576
        icodat := poke s.icodat s.offset f.data
        entry := s.entry ++ [newEntry host w h d f.st_size s.offset]
        count := u32 (s.count + 1)
        offset := u32 (s.offset + f.st_size) } := by
  refine ⟨visit_read_whole host s s1 f hv hacc, ?_⟩
  rcases visit_cases host s s1 f hv with h | ⟨-, h⟩ | ⟨w, ht, d, hcap, -, h⟩
  · rw [h] at hacc
    exact absurd rfl hacc
  · rw [h] at hacc
    exact absurd rfl hacc
  · refine ⟨?_, w, ht, d, h⟩
    have hd : s1.datcap = (if s.offset + f.st_size < s.bufsiz then s.datcap
        else s.bufsiz + f.st_size + 1048576) := by rw [h]
    rw [hd, hb] at hcap
    split_ifs at hcap <;> omega

/-- When no file that `read` delivers whole has 4 GiB - 2 MiB bytes or more, the
sizes of the accepted files do not carry the running offset past 32 bits. -/
theorem scan_total_lt (host : Host) (files : List PngFile) :
    ∀ s s1, scan host s files = some s1 → s.bufsiz = 1048576 →
      (∀ f ∈ files, f.readRet = some f.st_size → f.st_size + 2097152 < 4294967296) →
      s.offset < 4294967296 →
      s.offset + totalSize (accepted host s files) < 4294967296 := by
  induction files with
  | nil =>
    intro s s1 _ _ _ ho
    simpa [accepted, totalSize] using ho
  | cons f fs ih =>
    intro s s1 hs hb hrd ho
    have hrd1 : ∀ g ∈ fs, g.readRet = some g.st_size → g.st_size + 2097152 < 4294967296 :=
      fun g hg => hrd g (List.mem_cons_of_mem _ hg)
    rw [scan] at hs
    by_cases hg : s.count ≤ UINT16_MAX
    · rw [if_pos hg] at hs
      cases hv : visit host s f with
      | none => rw [hv] at hs; cases hs
      | some s2 =>
        rw [hv] at hs
        simp only [] at hs
        rw [accepted_cons host s s2 f fs hg hv]
        by_cases hne : s2.entry.length = s.entry.length
        · rw [if_pos hne]
          have e2 : s2.offset = s.offset ∧ s2.bufsiz = s.bufsiz := by
            rcases visit_cases host s s2 f hv with h | ⟨-, h⟩ | ⟨w, ht, d, -, -, h⟩
            · rw [h]
              exact ⟨rfl, rfl⟩
            · rw [h]
              exact ⟨rfl, rfl⟩
            · rw [h] at hne
              simp at hne
          have := ih s2 s1 hs (by rw [e2.2]; exact hb) hrd1 (by rw [e2.1]; exact ho)
          rw [e2.1] at this
          exact this
        · rw [if_neg hne, totalSize_cons]
          obtain ⟨hr, hoff, w, ht, d, h⟩ := visit_accept_offset host s s2 f hv hne hb
          have hsz := hrd f (List.mem_cons_self _ _) hr
          have e2 : s2.offset = s.offset + f.st_size := by
            rw [h]
            show u32 (s.offset + f.st_size) = _
            unfold u32
            omega
          have e3 : s2.bufsiz = s.bufsiz := by rw [h]
          have := ih s2 s1 hs (by rw [e3]; exact hb) hrd1 (by rw [e2]; omega)
          rw [e2] at this
          omega
    · simp only [accepted, if_neg hg, totalSize, List.map_nil, List.sum_nil, Nat.add_zero]
      exact ho

/-- Every entry holds a provisional offset of at most 2 MiB. -/
theorem scan_entry_offsets (host : Host) (files : List PngFile) :
    ∀ s s1, scan host s files = some s1 → s.bufsiz = 1048576 →
      (∀ e ∈ s.entry, e.imageoffset ≤ 2097152) →
      ∀ e ∈ s1.entry, e.imageoffset ≤ 2097152 := by
  induction files with
  | nil =>
    intro s s1 hs _ he
    cases hs
    exact he
  | cons f fs ih =>
    intro s s1 hs hb he
    rw [scan] at hs
    by_cases hg : s.count ≤ UINT16_MAX
    · rw [if_pos hg] at hs
      cases hv : visit host s f with
      | none => rw [hv] at hs; cases hs
      | some s2 =>
        rw [hv] at hs
        simp only [] at hs
        by_cases hne : s2.entry.length = s.entry.length
        · have e2 : s2.entry = s.entry ∧ s2.bufsiz = s.bufsiz := by
            rcases visit_cases host s s2 f hv with h | ⟨-, h⟩ | ⟨w, ht, d, -, -, h⟩
            · rw [h]
              exact ⟨rfl, rfl⟩
            · rw [h]
              exact ⟨rfl, rfl⟩
            · rw [h] at hne
              simp at hne
          exact ih s2 s1 hs (by rw [e2.2]; exact hb) (by rw [e2.1]; exact he)
        · obtain ⟨-, hoff, w, ht, d, h⟩ := visit_accept_offset host s s2 f hv hne hb
          have e1 : s2.entry = s.entry ++ [newEntry host w ht d f.st_size s.offset] := by rw [h]
          have e3 : s2.bufsiz = s.bufsiz := by rw [h]
          refine ih s2 s1 hs (by rw [e3]; exact hb) ?_
          intro e hmem
          rw [e1, List.mem_append, List.mem_singleton] at hmem
          rcases hmem with hmem | hmem
          · exact he e hmem
          · rw [hmem]
            exact hoff
    · rw [if_neg hg] at hs
      cases hs
      exact he

theorem offsetsFrom_getElem? : ∀ (ns : List Nat) (o i x : Nat),
    (offsetsFrom o ns)[i]? = some x → x = o + (ns.take i).sum ∧ i < ns.length := by
  intro ns
  induction ns with
  | nil => intro o i x hx; simp [offsetsFrom] at hx
  | cons n ns ih =>
    intro o i x hx
    cases i with
    | zero =>
      simp only [offsetsFrom, List.getElem?_cons_zero, Option.some.injEq] at hx
      simp [hx]
    | succ i =>
      simp only [offsetsFrom, List.getElem?_cons_succ] at hx
      obtain ⟨h1, h2⟩ := ih (o + n) i x hx
      refine ⟨?_, by simpa using h2⟩
      rw [h1, List.take_succ_cons, List.sum_cons]
      omega

theorem offsetsFrom_length : ∀ (ns : List Nat) (o : Nat), (offsetsFrom o ns).length = ns.length := by
  intro ns
  induction ns with
  | nil => intro o; rfl
  | cons n ns ih => intro o; simp [offsetsFrom, ih]

/-- The state after a run from the start in which no call of `read` returns
4 GiB - 2 MiB or more: `count` is the number of accepted files, the first `offset`
bytes of `icodat` are their contents in order, and the `i`-th entry after the
loop of lines 343-344 holds the size of the `i`-th accepted file and `dirsiz` plus
the sizes of the files accepted before it, neither cut to 32 bits. -/
theorem scan_entries (host : Host) (garbage : Nat → Byte) (files : List PngFile) (s : Packer)
    (hs : scan host (Packer.init host garbage) files = some s)
    (hrd : ∀ f ∈ files, f.readRet = some f.st_size → f.st_size + 2097152 < 4294967296) :
    s.count = (accepted host (Packer.init host garbage) files).length ∧
    s.count ≤ 65536 ∧ s.entry.length = s.count ∧
    s.offset = totalSize (accepted host (Packer.init host garbage) files) ∧
    (List.range s.offset).map s.icodat =
      (accepted host (Packer.init host garbage) files).flatMap PngFile.data ∧
    ∀ i e, (patchedEntries host s)[i]? = some e →
      ∃ f, (accepted host (Packer.init host garbage) files)[i]? = some f ∧
        e.imagesize = mapLE32 host f.st_size ∧ f.st_size < 4294967296 ∧
        e.imageoffset = mapLE32 host
          (dirsiz s + totalSize ((accepted host (Packer.init host garbage) files).take i)) ∧
        dirsiz s + totalSize ((accepted host (Packer.init host garbage) files).take i) <
          4294967296 ∧
        (offsetsFrom (dirsiz s)
          ((accepted host (Packer.init host garbage) files).map PngFile.st_size))[i]? =
          some (dirsiz s + totalSize ((accepted host (Packer.init host garbage) files).take i)) := by
  have hc := scan_count_le host files _ s (by rw [init_count]; decide) hs
  have hl := scan_entry_length host files _ s (by rw [init_count]; decide)
    (by rw [init_entry, init_count]; rfl) hs
  have htot := scan_total_lt host files _ s hs rfl hrd (by rw [init_offset]; decide)
  have heo := scan_entry_offsets host files _ s hs rfl
    (by rw [init_entry]; intro e he; cases he)
  obtain ⟨g1, g2, g3, g4⟩ := scan_good host files _ s hs htot
  rw [init_offset, Nat.zero_add] at g1
  rw [init_offset, List.range_zero, List.map_nil, List.nil_append] at g2
  rw [init_entry, init_offset, List.map_nil, List.nil_append] at g3
  rw [init_entry, List.map_nil, List.nil_append] at g4
  rw [init_offset, Nat.zero_add] at htot
  generalize accepted host (Packer.init host garbage) files = acc at *
  have hlen : s.entry.length = acc.length := by
    have := congrArg List.length g4
    simpa using this
  have hd := dirsiz_eq s hc
  refine ⟨by rw [← hl, hlen], hc, hl, g1, g2, ?_⟩
  intro i e hpe
  unfold patchedEntries at hpe
  rw [List.getElem?_map, Option.map_eq_some'] at hpe
  obtain ⟨e0, he0, hee⟩ := hpe
  have hi : i < s.entry.length := by
    rw [List.getElem?_eq_some] at he0
    exact he0.1
  have hmem : e0 ∈ s.entry := List.getElem?_mem he0
  have hoff := heo e0 hmem
  have hf : ∃ f, acc[i]? = some f := by
    have : i < acc.length := by omega
    exact ⟨acc[i], List.getElem?_eq_getElem this⟩
  obtain ⟨f, hf⟩ := hf
  have h3 : (offsetsFrom 0 (acc.map PngFile.st_size))[i]? = some e0.imageoffset := by
    rw [← g3, List.getElem?_map, he0]
    rfl
  have h4 : some e0.imagesize = some (mapLE32 host f.st_size) := by
    have := congrArg (fun l => l[i]?) g4
    simpa [List.getElem?_map, he0, hf] using this
  obtain ⟨h5, -⟩ := offsetsFrom_getElem? _ _ _ _ h3
  have h6 : ((acc.map PngFile.st_size).take i).sum = totalSize (acc.take i) := by
    unfold totalSize
    rw [List.map_take]
  rw [h6, Nat.zero_add] at h5
  have hfs : f.st_size ≤ totalSize acc := by
    unfold totalSize
    exact List.single_le_sum (fun _ _ => Nat.zero_le _) _
      (List.mem_map.mpr ⟨f, List.getElem?_mem hf, rfl⟩)
  have h7 : (offsetsFrom (dirsiz s) (acc.map PngFile.st_size))[i]? =
      some (dirsiz s + totalSize (acc.take i)) := by
    have := offsetsFrom_add (acc.map PngFile.st_size) (dirsiz s) 0
    rw [Nat.add_zero] at this
    rw [this, List.getElem?_map, h3, h5]
    rfl
  refine ⟨f, hf, ?_, by omega, ?_, by omega, h7⟩
  · rw [← hee]
    exact Option.some.inj h4
  · rw [← hee]
    show mapLE32 host (u32 (dirsiz s + e0.imageoffset)) = _
    rw [h5]
    unfold u32
    rw [Nat.mod_eq_of_lt (by omega)]

/-- Layout (support for C1). In a run that writes an output, with at most 65535
accepted files and no call of `read` returning 4 GiB - 2 MiB bytes or more, the
output is the header with the number of accepted files, the entries, and the
contents of the accepted files in order. -/
theorem output_layout (host : Host) (garbage : Nat → Byte) (files : List PngFile)
    (icoOpenOk : Bool) (bytes : List Byte)
    (hout : icopacker host garbage files icoOpenOk = .file bytes)
    (hrd : ∀ f ∈ files, f.readRet = some f.st_size → f.st_size + 2097152 < 4294967296)
    (hn : (accepted host (Packer.init host garbage) files).length ≤ 65535) :
    ∃ s, scan host (Packer.init host garbage) files = some s ∧
      s.count = (accepted host (Packer.init host garbage) files).length ∧
      (patchedEntries host s).length = (accepted host (Packer.init host garbage) files).length ∧
      bytes = [0, 0, 1, 0, byte s.count, byte (s.count / 256)] ++
        (patchedEntries host s).flatMap (ICOEntry.bytes host) ++
        (accepted host (Packer.init host garbage) files).flatMap PngFile.data := by
  have hw : totalSize (accepted host (Packer.init host garbage) files) < 4294967296 := by
    cases hs : scan host (Packer.init host garbage) files with
    | none =>
      unfold icopacker at hout
      rw [hs] at hout
      cases hout
    | some s =>
      have := scan_total_lt host files _ s hs rfl hrd (by rw [init_offset]; decide)
      rw [init_offset, Nat.zero_add] at this
      exact this
  exact output_without_wrap host garbage files icoOpenOk bytes hout hw hn

/-! ## Runs on copies of one file -/

/-- Every one of `n` copies of a file that is accepted on its own is accepted,
while the payload stays below 2 MiB and the count below the loop bound. -/
theorem accepted_replicate (host : Host) (f : PngFile) (w h d : Nat)
    (hl : f.lstatOk = true) (ho : f.openOk = true) (hr : f.readRet = some f.st_size)
    (h26 : 26 ≤ f.data.length) (hacc : inspect host (readBuf f.data) = .accept w h d) :
    ∀ (n : Nat) (s : Packer), s.bufsiz = 1048576 → 1048576 ≤ s.datcap →
      s.offset ≤ s.datcap → s.count ≤ s.dircnt → s.dircnt ≤ s.count + 10 →
      s.count + n ≤ 65536 → s.offset + n * f.st_size ≤ 2097152 →
      accepted host s (List.replicate n f) = List.replicate n f := by
  intro n
  induction n with
  | zero =>
    intro s _ _ _ _ _ _ _
    rfl
  | succ n ih =>
    intro s hb hd hod hc1 hc2 hcnt hoff
    have hmul : (n + 1) * f.st_size = n * f.st_size + f.st_size := by ring
    have hsz : f.st_size ≤ UINT32_MAX := by unfold UINT32_MAX; omega
    have hcap : s.offset + f.st_size ≤
        (if s.offset + f.st_size < s.bufsiz then s.datcap
          else s.bufsiz + f.st_size + 1048576) := by
      split_ifs <;> omega
    have hdir : s.count < (if s.count < s.dircnt then s.dircnt else u32 (s.dircnt + 10)) := by
      unfold u32
      split_ifs <;> omega
    obtain ⟨s1, hv, e1, e2, e3, e4, e5, e6, -, -, -⟩ :=
      visit_fields host s f w h d hl ho hsz h26 hacc hcap hdir hr
    have hu1 : u32 (s.count + 1) = s.count + 1 := by unfold u32; omega
    have hu2 : u32 (s.offset + f.st_size) = s.offset + f.st_size := by unfold u32; omega
    rw [hu1] at e2
    rw [hu2] at e3
    have hg : s.count ≤ UINT16_MAX := by unfold UINT16_MAX; omega
    rw [List.replicate_succ, accepted_cons host s s1 f _ hg hv,
      if_neg (by rw [e6, List.length_append]; simp)]
    rw [ih s1 (by rw [e1]; exact hb) (by rw [e5]; split_ifs <;> omega)
      (by rw [e5, e3]; exact hcap)
      (by rw [e2, e4]; unfold u32; split_ifs <;> omega)
      (by rw [e2, e4]; unfold u32; split_ifs <;> omega)
      (by rw [e2]; omega) (by rw [e3]; omega)]

/-! ## The name and type filter -/

/-- The four bytes in front of the end of a name of at least four bytes. -/
theorem drop_last4_eq_iff (xs : List Byte) (h : 4 ≤ xs.length) (a b c d : Byte) :
    xs.drop (xs.length - 4) = [a, b, c, d] ↔
      xs.getD (xs.length - 4) 0 = a ∧ xs.getD (xs.length - 3) 0 = b ∧
      xs.getD (xs.length - 2) 0 = c ∧ xs.getD (xs.length - 1) 0 = d := by
  have e : ∀ i, xs.getD (xs.length - 4 + i) 0 = (xs.drop (xs.length - 4)).getD i 0 := by
    intro i
    simp [List.getD_eq_getElem?_getD, List.getElem?_drop]
  have e1 := e 1
  have e2 := e 2
  have e3 := e 3
  have e0 := e 0
  rw [show xs.length - 4 + 1 = xs.length - 3 by omega] at e1
  rw [show xs.length - 4 + 2 = xs.length - 2 by omega] at e2
  rw [show xs.length - 4 + 3 = xs.length - 1 by omega] at e3
  rw [Nat.add_zero] at e0
  rw [e0, e1, e2, e3]
  have hl : (xs.drop (xs.length - 4)).length = 4 := by
    rw [List.length_drop]
    omega
  generalize xs.drop (xs.length - 4) = ys at hl
  rcases ys with _ | ⟨y0, _ | ⟨y1, _ | ⟨y2, _ | ⟨y3, _ | ⟨y4, rest⟩⟩⟩⟩⟩ <;>
    first | (simp at hl; done) | simp

/-- The filter of line 265 byte by byte: the four bytes in front of the end of
the name are `.`, `p`, `n`, `g`, on either host byte order. -/
theorem isCandidate_iff (host : Host) (ep : DirEnt) :
    isCandidate host ep = true ↔
      ep.nameAt 0 ≠ 0x2E ∧ ep.d_type = DT_REG ∧
      ep.tailAt 4 = 0x2E ∧ ep.tailAt 3 = 0x70 ∧ ep.tailAt 2 = 0x6E ∧ ep.tailAt 1 = 0x67 := by
  unfold isCandidate nameTail
  rw [Bool.and_eq_true, Bool.and_eq_true, decide_eq_true_eq, decide_eq_true_eq,
    decide_eq_true_eq, load32_inj, and_assoc]

/-- A name begins with `.` exactly when `d_name[0]` is `.`; the byte behind an
empty name is its terminating NUL. -/
theorem nameAt_zero_ne_dot (ep : DirEnt) :
    ep.nameAt 0 ≠ 0x2E ↔ ep.d_name.head? ≠ some 0x2E := by
  unfold DirEnt.nameAt
  cases ep.d_name with
  | nil => simp
  | cons a as => simp

/-- For a name of at least four bytes the filter lets pass exactly the regular
files whose name does not begin with `.` and ends with the four bytes `.png`;
the bytes in front of `d_name` are not read. -/
theorem isCandidate_of_long (host : Host) (ep : DirEnt) (h : 4 ≤ ep.d_namlen) :
    isCandidate host ep = true ↔
      ep.d_type = DT_REG ∧ ep.d_name.head? ≠ some 0x2E ∧
      [0x2E, 0x70, 0x6E, 0x67] <:+ ep.d_name := by
  have hs : [0x2E, 0x70, 0x6E, 0x67] <:+ ep.d_name ↔
      ep.tailAt 4 = 0x2E ∧ ep.tailAt 3 = 0x70 ∧ ep.tailAt 2 = 0x6E ∧ ep.tailAt 1 = 0x67 := by
    rw [List.suffix_iff_eq_drop, eq_comm]
    have h4 : ep.tailAt 4 = ep.d_name.getD (ep.d_name.length - 4) 0 := by
      unfold DirEnt.tailAt
      rw [if_pos h]
      rfl
    have h3 : ep.tailAt 3 = ep.d_name.getD (ep.d_name.length - 3) 0 := by
      unfold DirEnt.tailAt
      rw [if_pos (by omega)]
      rfl
    have h2 : ep.tailAt 2 = ep.d_name.getD (ep.d_name.length - 2) 0 := by
      unfold DirEnt.tailAt
      rw [if_pos (by omega)]
      rfl
    have h1 : ep.tailAt 1 = ep.d_name.getD (ep.d_name.length - 1) 0 := by
      unfold DirEnt.tailAt
      rw [if_pos (by omega)]
      rfl
    rw [h4, h3, h2, h1]
    exact drop_last4_eq_iff ep.d_name h _ _ _ _
  rw [isCandidate_iff, hs, nameAt_zero_ne_dot]
  tauto

/-- For a name of fewer than four bytes the byte right in front of `d_name` is
among the four bytes compared: when it is none of `.`, `p`, `n`, `g`, the
filter rejects the entry. -/
theorem isCandidate_of_short (host : Host) (ep : DirEnt) (h : ep.d_namlen < 4)
    (hfront : ep.front 0 ≠ 0x2E ∧ ep.front 0 ≠ 0x70 ∧ ep.front 0 ≠ 0x6E ∧ ep.front 0 ≠ 0x67) :
    isCandidate host ep = false := by
  rw [Bool.eq_false_iff, ne_eq, isCandidate_iff]
  rintro ⟨-, -, t4, t3, t2, t1⟩
  obtain ⟨f4, f3, f2, f1⟩ := hfront
  unfold DirEnt.tailAt at t4 t3 t2 t1
  have hn : ep.d_namlen = 0 ∨ ep.d_namlen = 1 ∨ ep.d_namlen = 2 ∨ ep.d_namlen = 3 := by omega
  rcases hn with hn | hn | hn | hn
  · rw [hn] at t1
    exact f1 t1
  · rw [hn] at t2
    exact f2 t2
  · rw [hn] at t3
    exact f3 t3
  · rw [hn] at t4
    exact f4 t4

/-- A name of fewer than four bytes passes the filter only if it ends with `g`:
the last byte compared is the last byte of the name. -/
theorem isCandidate_last_byte (host : Host) (ep : DirEnt) (h : 1 ≤ ep.d_namlen)
    (hc : isCandidate host ep = true) : ep.nameAt (ep.d_namlen - 1) = 0x67 := by
  rw [isCandidate_iff] at hc
  obtain ⟨-, -, -, -, -, t1⟩ := hc
  unfold DirEnt.tailAt at t1
  rw [if_pos h] at t1
  exact t1

/-- The names of the scenario, whatever the record holds in front of `d_name`:
`a.png` passes the filter; `notes.txt`, `b.PNG`, `.png`, a directory `a.png` and
the short names `a`, `ab`, `abc` do not. -/
theorem isCandidate_examples (host : Host) (front : Nat → Byte) (f : PngFile) :
    isCandidate host (regular nameAPng front f) = true ∧
    isCandidate host (regular nameNotesTxt front f) = false ∧
    isCandidate host (regular nameBUpper front f) = false ∧
    isCandidate host (regular nameDotPng front f) = false ∧
    isCandidate host (entDirPng front f) = false ∧
    isCandidate host (regular nameA front f) = false ∧
    isCandidate host (regular nameAB front f) = false ∧
    isCandidate host (regular nameABC front f) = false := by
  refine ⟨?_, ?_, ?_, ?_, ?_, ?_, ?_, ?_⟩
  · rw [isCandidate_of_long host (regular nameAPng front f) (show 4 ≤ nameAPng.length by decide)]
    exact ⟨rfl, show nameAPng.head? ≠ some 0x2E by decide,
      show [0x2E, 0x70, 0x6E, 0x67] <:+ nameAPng by decide⟩
  · rw [Bool.eq_false_iff, ne_eq, isCandidate_of_long host (regular nameNotesTxt front f) (show 4 ≤ nameNotesTxt.length by decide)]
    rintro ⟨-, -, hs⟩
    exact absurd hs (show ¬ [0x2E, 0x70, 0x6E, 0x67] <:+ nameNotesTxt by decide)
  · rw [Bool.eq_false_iff, ne_eq, isCandidate_of_long host (regular nameBUpper front f) (show 4 ≤ nameBUpper.length by decide)]
    rintro ⟨-, -, hs⟩
    exact absurd hs (show ¬ [0x2E, 0x70, 0x6E, 0x67] <:+ nameBUpper by decide)
  · rw [Bool.eq_false_iff, ne_eq, isCandidate_of_long host (regular nameDotPng front f) (show 4 ≤ nameDotPng.length by decide)]
    rintro ⟨-, hd, -⟩
    exact absurd hd (show ¬ nameDotPng.head? ≠ some 0x2E by decide)
  · rw [Bool.eq_false_iff, ne_eq, isCandidate_of_long host (entDirPng front f) (show 4 ≤ nameAPng.length by decide)]
    rintro ⟨ht, -, -⟩
    exact absurd ht (show ¬ (4 : Nat) = DT_REG by decide)
  · rw [Bool.eq_false_iff]
    intro hc
    exact absurd (isCandidate_last_byte host (regular nameA front f) (show 1 ≤ nameA.length by decide) hc)
      (show ¬ nameA.getD (nameA.length - 1) 0 = 0x67 by decide)
  · rw [Bool.eq_false_iff]
    intro hc
    exact absurd (isCandidate_last_byte host (regular nameAB front f) (show 1 ≤ nameAB.length by decide) hc)
      (show ¬ nameAB.getD (nameAB.length - 1) 0 = 0x67 by decide)
  · rw [Bool.eq_false_iff]
    intro hc
    exact absurd (isCandidate_last_byte host (regular nameABC front f) (show 1 ≤ nameABC.length by decide) hc)
      (show ¬ nameABC.getD (nameABC.length - 1) 0 = 0x67 by decide)

/-- The loop over the records of a directory is the loop over the files that
pass the filter. -/
theorem scanDir_eq_scan (host : Host) (eps : List DirEnt) :
    ∀ s, scanDir host s eps =
      scan host s ((eps.filter (isCandidate host)).map DirEnt.file) := by
  induction eps with
  | nil => intro s; rfl
  | cons ep eps ih =>
    intro s
    by_cases hc : s.count ≤ UINT16_MAX
    · rw [scanDir, if_pos hc]
      by_cases hv : isCandidate host ep = true
      · rw [if_pos hv, List.filter_cons_of_pos hv, List.map_cons, scan, if_pos hc]
        cases visit host s ep.file with
        | none => rfl
        | some s1 => exact ih s1
      · rw [if_neg hv, List.filter_cons_of_neg hv]
        exact ih s
    · rw [scanDir, if_neg hc, scan_of_full host s _ hc]

/-! ## The claims -/

/-- C1, evaluated where the code departs from it. For 65536 copies of `tinyPng`,
every one of them accepted, an output is written. It is the six bytes
`00 00 01 00 00 00`, then the 65536 entries, then the contents of the 65536
files: the two bytes that are to hold the number of accepted files hold 0. The
loop guard of line 264 is `count <= UINT16_MAX`, so `count` reaches 65536, and
line 340 stores `(uint16_t)count`. -/
theorem count_field_zero_at_65536 (host : Host) (garbage : Nat → Byte) :
    ∃ s, scan host (Packer.init host garbage) (List.replicate 65536 tinyPng) = some s ∧
      accepted host (Packer.init host garbage) (List.replicate 65536 tinyPng) =
        List.replicate 65536 tinyPng ∧
      s.count = 65536 ∧
      (patchedEntries host s).length = 65536 ∧
      icopacker host garbage (List.replicate 65536 tinyPng) true =
        .file ([0, 0, 1, 0, 0, 0] ++ (patchedEntries host s).flatMap (ICOEntry.bytes host) ++
          (List.replicate 65536 tinyPng).flatMap PngFile.data) := by
  obtain ⟨s, h1, hc, ho, he, hr, ht, h7⟩ := scan_65536 host garbage
  have ha := accepted_replicate host tinyPng 1 1 32 rfl rfl rfl (by decide)
    (inspect_tinyHeader host) 65536 (Packer.init host garbage) (by simp) (by simp)
    (by simp) (by simp) (by simp) (by simp) (by simp [st_size_tinyPng])
  have hrd : ∀ f ∈ List.replicate 65536 tinyPng,
      f.readRet = some f.st_size → f.st_size + 2097152 < 4294967296 := by
    intro f hf _
    rw [List.eq_of_mem_replicate hf, st_size_tinyPng]
    decide
  obtain ⟨-, -, -, -, h5, -⟩ := scan_entries host garbage _ s h1 hrd
  rw [ha] at h5
  have hb := icodirBytes_eq host s (by rw [he, hc]) (by rw [hc]) hr ht
  rw [hc] at hb
  have hz : ([0, 0, 1, 0, byte (u16 65536), byte (u16 65536 / 256)] : List Byte) =
      [0, 0, 1, 0, 0, 0] := by decide
  rw [hz] at hb
  refine ⟨s, h1, ha, hc, by rw [length_patchedEntries, he], ?_⟩
  have hw : wrapUp host true s =
      .file (icodirBytes host s ++ (List.range s.offset).map s.icodat) := by
    unfold wrapUp
    rw [if_pos ⟨by rw [hc]; decide, by rw [ho]; decide, rfl⟩, if_pos h7]
  unfold icopacker
  rw [h1]
  simp only []
  rw [hw, hb, h5]

/-- C4. On a buffer of at least 33 bytes the header checks never leave the
buffer, and they accept with `(w, h, d)` if and only if bytes 0-7 are the PNG
signature, bytes 8-11 read big-endian are 13, bytes 12-15 are `IHDR`, `w` and
`h` are the big-endian values of bytes 16-19 and 20-23 and lie in 1..256, byte
25 is one of 0, 2, 3, 4, 6, and `d` is byte 24 times the channel count of byte
25 and at most 32. This holds on either host byte order. -/
theorem inspect_accept_iff (host : Host) (buf : List Byte) (hlen : 33 ≤ buf.length) :
    inspect host (readBuf buf) ≠ .undefined ∧
    ∀ w h d, inspect host (readBuf buf) = .accept w h d ↔
      (buf.take 8 = [0x89, 0x50, 0x4E, 0x47, 0x0D, 0x0A, 0x1A, 0x0A] ∧
       be32 (bufAt buf) 8 = 13 ∧
       (buf.drop 12).take 4 = [0x49, 0x48, 0x44, 0x52] ∧
       w = be32 (bufAt buf) 16 ∧ 1 ≤ w ∧ w ≤ 256 ∧
       h = be32 (bufAt buf) 20 ∧ 1 ≤ h ∧ h ≤ 256 ∧
       (bufAt buf 25).val ∈ [0, 2, 3, 4, 6] ∧
       d = (bufAt buf 24).val * channels (bufAt buf 25).val ∧ d ≤ 32) := by
  have hrd : ∀ k, k < 26 → readBuf buf k = some (bufAt buf k) :=
    fun k hk => readBuf_eq_bufAt buf k (by omega)
  rw [inspect_of_reads host _ _ hrd, take8_eq_iff buf (by omega),
    drop12_take4_eq_iff buf (by omega)]
  constructor
  · split_ifs
    · split
      · simp
      · split_ifs <;> simp
    · simp
  · intro w h d
    simp only [List.mem_cons, List.mem_singleton, List.not_mem_nil, or_false]
    constructor
    · intro hacc
      split_ifs at hacc with hc
      split at hacc
      · cases hacc
      · rename_i k hk
        rw [colorFactor_eq_some_iff] at hk
        split_ifs at hacc with hd
        simp only [Verdict.accept.injEq] at hacc
        obtain ⟨hw, hh, hdd⟩ := hacc
        obtain ⟨hk1, hk2⟩ := hk
        have hd2 : d = (bufAt buf 24).val * channels (bufAt buf 25).val := by
          rw [← hdd, hk2, Nat.mul_comm]
        have hd3 : d ≤ 32 := by rw [← hdd]; exact hd
        rw [← hw, ← hh]
        tauto
    · intro hr
      obtain ⟨hs, hl, hi, hw, hw1, hw2, hh, hh1, hh2, hc, hdd, hd⟩ := hr
      have hk := (colorFactor_eq_some_iff _ _).mpr ⟨hc, rfl⟩
      rw [hw] at hw1 hw2
      rw [hh] at hh1 hh2
      rw [if_pos (by tauto), hk]
      simp only []
      rw [Nat.mul_comm, ← hdd, if_pos hd, hw, hh]

/-- Witness for `inspect_accept_iff` on the 33 bytes of `sampleHeader`. -/
theorem inspect_accept_iff_witness :
    33 ≤ sampleHeader.length ∧
    (inspect .little (readBuf sampleHeader) ≠ .undefined ∧
    ∀ w h d, inspect .little (readBuf sampleHeader) = .accept w h d ↔
      (sampleHeader.take 8 = [0x89, 0x50, 0x4E, 0x47, 0x0D, 0x0A, 0x1A, 0x0A] ∧
       be32 (bufAt sampleHeader) 8 = 13 ∧
       (sampleHeader.drop 12).take 4 = [0x49, 0x48, 0x44, 0x52] ∧
       w = be32 (bufAt sampleHeader) 16 ∧ 1 ≤ w ∧ w ≤ 256 ∧
       h = be32 (bufAt sampleHeader) 20 ∧ 1 ≤ h ∧ h ≤ 256 ∧
       (bufAt sampleHeader 25).val ∈ [0, 2, 3, 4, 6] ∧
       d = (bufAt sampleHeader 24).val * channels (bufAt sampleHeader 25).val ∧ d ≤ 32)) :=
  ⟨by decide, inspect_accept_iff .little sampleHeader (by decide)⟩

/-- C5, evaluated where the code departs from it. For 65536 copies of `tinyPng`
an output is written whose header bytes are `00 00 01 00 00 00`, so its
`imgcount` field is 0, while 65536 entries (6 + 16 * 65536 directory bytes) and
the 65536 * 26 payload bytes of 65536 images are written. -/
theorem imgcount_zero_with_65536_entries (host : Host) (garbage : Nat → Byte) :
    ∃ s, scan host (Packer.init host garbage) (List.replicate 65536 tinyPng) = some s ∧
      icopacker host garbage (List.replicate 65536 tinyPng) true =
        .file (icodirBytes host s ++ (List.range s.offset).map s.icodat) ∧
      (icodirBytes host s).take 6 = [0, 0, 1, 0, 0, 0] ∧
      (patchedEntries host s).length = 65536 ∧
      (icodirBytes host s).length = 6 + 16 * 65536 ∧
      s.offset = 65536 * 26 := by
  obtain ⟨s, h1, hc, ho, he, hr, ht, h7⟩ := scan_65536 host garbage
  have hb := icodirBytes_eq host s (by rw [he, hc]) (by rw [hc]) hr ht
  refine ⟨s, h1, ?_, ?_, ?_, ?_, ho⟩
  · unfold icopacker
    rw [h1]
    unfold wrapUp
    simp only []
    rw [if_pos ⟨by rw [hc]; decide, by rw [ho]; decide, trivial⟩, if_pos h7]
  · rw [hb, hc]
    rfl
  · rw [length_patchedEntries, he]
  · rw [hb, List.length_append, length_flatMap_bytes, length_patchedEntries, he]
    rfl

/-- C6, evaluated where the code departs from it. Scanning 65536 copies of
`tinyPng` accepts every one of them: the count ends at 65536, above
`UINT16_MAX`. The loop guard is `count <= UINT16_MAX`. -/
theorem scan_accepts_65536 (host : Host) (garbage : Nat → Byte) :
    ∃ s, scan host (Packer.init host garbage) (List.replicate 65536 tinyPng) = some s ∧
      s.count = 65536 ∧ UINT16_MAX < s.count := by
  obtain ⟨s, h1, h2, -⟩ := scan_65536 host garbage
  exact ⟨s, h1, h2, by rw [h2]; decide⟩

/-- C7, evaluated where the code departs from it. `deepPng` (pixel depth 64) is
ignored; `truncatedPng` has 25 bytes, so the checks on its own bytes run past
its end; yet read after `deepPng` it is judged on its 25 bytes followed by the
colour type byte that `deepPng` left in the buffer, and an entry for it
(64x64, 32 bit, size 25, offset 22) and its bytes are written, on either host
and whatever the buffer held at the start. -/
theorem truncated_file_accepted_on_stale_bytes (host : Host) (garbage : Nat → Byte) :
    inspect host (readBuf deepPng.data) = .ignore ∧
    inspect host (readBuf truncatedPng.data) = .undefined ∧
    truncatedPng.data.length = 25 ∧
    icopacker host garbage [deepPng, truncatedPng] true =
      .file ([0, 0, 1, 0, 1, 0,
              64, 64, 0, 0, 1, 0, 32, 0, 25, 0, 0, 0, 22, 0, 0, 0] ++ truncatedPng.data) := by
  refine ⟨inspect_deepPng host, by cases host <;> decide, rfl, ?_⟩
  rw [icopacker_stale host garbage deepPng truncatedPng 64 64 32 rfl rfl rfl rfl (by decide)
    (by decide) (by decide) (by decide) (inspect_deepPng host) (by cases host <;> decide)
    rfl rfl, bytes_patched_newEntry]
  rfl

/-- C8, evaluated where the code departs from it. `badLengthPng` has a valid
signature and header chunk length 14, and is ignored. With it in front,
`leadPng` (12 bytes) is accepted and a file is written, whatever the buffer
held at the start; from `leadPng` alone, the subsequence of accepted files,
and a zero-filled buffer no file is written. -/
theorem skipped_file_changes_output (host : Host) (garbage : Nat → Byte) :
    inspect host (readBuf badLengthPng.data) = .ignore ∧
    icopacker host garbage [badLengthPng, leadPng] true =
      .file ([0, 0, 1, 0, 1, 0,
              64, 64, 0, 0, 1, 0, 32, 0, 12, 0, 0, 0, 22, 0, 0, 0] ++ leadPng.data) ∧
    icopacker host zeroed [leadPng] true = .noFile := by
  refine ⟨inspect_badLengthPng host, ?_, by cases host <;> decide⟩
  rw [icopacker_stale host garbage badLengthPng leadPng 64 64 32 rfl rfl rfl rfl (by decide)
    (by decide) (by decide) (by decide) (inspect_badLengthPng host) (by cases host <;> decide)
    rfl rfl, bytes_patched_newEntry]
  rfl

/-- C9. When the 26 inspected bytes are readable and the checks accept with
`(w, h, d)`, then `w` and `h` are the declared big-endian width and height, both
lie in 1..256, the width and height members of the new entry are 0 for 256
and the value itself otherwise, and reading 0 as 256 recovers `w` and `h`. A
declared width or height that is 0 or above 256 makes the checks ignore the
file. In particular 256 is stored as 0 and 255 as 255. -/
theorem dimension_encoding (host : Host) (rd : Nat → Option Byte) (g : Nat → Byte)
    (hrd : ∀ k, k < 26 → rd k = some (g k)) :
    (∀ w h d, inspect host rd = .accept w h d →
      w = be32 g 16 ∧ h = be32 g 20 ∧ 1 ≤ w ∧ w ≤ 256 ∧ 1 ≤ h ∧ h ≤ 256 ∧
      ∀ sz off,
        (newEntry host w h d sz off).width = (if w = 256 then 0 else w) ∧
        (newEntry host w h d sz off).height = (if h = 256 then 0 else h) ∧
        decodeDim (newEntry host w h d sz off).width = w ∧
        decodeDim (newEntry host w h d sz off).height = h) ∧
    (be32 g 16 = 0 ∨ 256 < be32 g 16 ∨ be32 g 20 = 0 ∨ 256 < be32 g 20 →
      inspect host rd = .ignore) ∧
    (∀ h d sz off, (newEntry host 256 h d sz off).width = 0 ∧
      (newEntry host 255 h d sz off).width = 255) ∧
    (∀ w d sz off, (newEntry host w 256 d sz off).height = 0 ∧
      (newEntry host w 255 d sz off).height = 255) := by
  rw [inspect_of_reads host rd g hrd]
  refine ⟨?_, ?_, fun _ _ _ _ => ⟨rfl, rfl⟩, fun _ _ _ _ => ⟨rfl, rfl⟩⟩
  · intro w h d hacc
    split_ifs at hacc with hc
    split at hacc
    · cases hacc
    · split_ifs at hacc
      simp only [Verdict.accept.injEq] at hacc
      obtain ⟨hw, hh, -⟩ := hacc
      have hw1 := hc.2.2.2.2.2.2.2.2.2.2.2.2.2.1
      have hh1 := hc.2.2.2.2.2.2.2.2.2.2.2.2.2.2
      rw [hw] at hw1
      rw [hh] at hh1
      refine ⟨hw.symm, hh.symm, hw1.1, hw1.2, hh1.1, hh1.2, ?_⟩
      intro sz off
      simp only [newEntry, u8, decodeDim]
      refine ⟨?_, ?_, ?_, ?_⟩ <;> split_ifs <;> omega
  · intro hbad
    rw [if_neg]
    intro hc
    have hw1 := hc.2.2.2.2.2.2.2.2.2.2.2.2.2.1
    have hh1 := hc.2.2.2.2.2.2.2.2.2.2.2.2.2.2
    omega

/-- Witness for `dimension_encoding` on `sampleHeader`, a 256x255 image. -/
theorem dimension_encoding_witness :
    (∀ k, k < 26 → readBuf sampleHeader k = some (bufAt sampleHeader k)) ∧
    ((∀ w h d, inspect .little (readBuf sampleHeader) = .accept w h d →
      w = be32 (bufAt sampleHeader) 16 ∧ h = be32 (bufAt sampleHeader) 20 ∧
      1 ≤ w ∧ w ≤ 256 ∧ 1 ≤ h ∧ h ≤ 256 ∧
      ∀ sz off,
        (newEntry .little w h d sz off).width = (if w = 256 then 0 else w) ∧
        (newEntry .little w h d sz off).height = (if h = 256 then 0 else h) ∧
        decodeDim (newEntry .little w h d sz off).width = w ∧
        decodeDim (newEntry .little w h d sz off).height = h) ∧
    (be32 (bufAt sampleHeader) 16 = 0 ∨ 256 < be32 (bufAt sampleHeader) 16 ∨
        be32 (bufAt sampleHeader) 20 = 0 ∨ 256 < be32 (bufAt sampleHeader) 20 →
      inspect .little (readBuf sampleHeader) = .ignore) ∧
    (∀ h d sz off, (newEntry .little 256 h d sz off).width = 0 ∧
      (newEntry .little 255 h d sz off).width = 255) ∧
    (∀ w d sz off, (newEntry .little w 256 d sz off).height = 0 ∧
      (newEntry .little w 255 d sz off).height = 255)) :=
  ⟨fun k hk => readBuf_eq_bufAt sampleHeader k (Nat.lt_of_lt_of_le hk (by decide)),
   dimension_encoding .little (readBuf sampleHeader) (bufAt sampleHeader)
     (fun k hk => readBuf_eq_bufAt sampleHeader k (Nat.lt_of_lt_of_le hk (by decide)))⟩

/-- C10. For a bit depth `g 24` and a colour type `g 25` among 0, 2, 3, 4, 6 the
switch selects the channel count, the `uint16_t` product equals bit depth
times channel count without wraparound, and a framed header is accepted with
that pixel depth exactly when the product is at most 32 and ignored
otherwise. Colour type 2 with depth 8 gives 24, colour type 6 with depth 8
gives 32, colour type 6 with depth 16 gives 64. -/
theorem pixeldepth_computation (host : Host) (rd : Nat → Option Byte) (g : Nat → Byte)
    (hrd : ∀ k, k < 26 → rd k = some (g k))
    (hc : (g 25).val = 0 ∨ (g 25).val = 2 ∨ (g 25).val = 3 ∨ (g 25).val = 4 ∨ (g 25).val = 6) :
    colorFactor (g 25).val = some (channels (g 25).val) ∧
    u16 (channels (g 25).val * (g 24).val) = (g 24).val * channels (g 25).val ∧
    (framed g → inspect host rd =
      if (g 24).val * channels (g 25).val ≤ 32 then
        .accept (be32 g 16) (be32 g 20) ((g 24).val * channels (g 25).val)
      else .ignore) ∧
    (¬ framed g → inspect host rd = .ignore) ∧
    (colorFactor 2 = some 3 ∧ u16 (3 * 8) = 24 ∧ colorFactor 6 = some 4 ∧ u16 (4 * 8) = 32 ∧
      u16 (4 * 16) = 64) := by
  have hk := (colorFactor_eq_some_iff (g 25).val _).mpr ⟨hc, rfl⟩
  have hlt := (g 24).isLt
  have hch : channels (g 25).val ≤ 4 := (colorFactor_le _ _ hk).2
  refine ⟨hk, ?_, ?_, ?_, by decide⟩
  · unfold u16
    rw [Nat.mod_eq_of_lt (by nlinarith), Nat.mul_comm]
  · intro hf
    unfold framed at hf
    rw [inspect_of_reads host rd g hrd, if_pos hf, hk]
    simp only [Nat.mul_comm (channels (g 25).val)]
  · intro hf
    unfold framed at hf
    rw [inspect_of_reads host rd g hrd, if_neg hf]

/-- Witness for `pixeldepth_computation` on `sampleHeader`: colour type 2, bit
depth 8. -/
theorem pixeldepth_computation_witness :
    (∀ k, k < 26 → readBuf sampleHeader k = some (bufAt sampleHeader k)) ∧
    ((bufAt sampleHeader 25).val = 0 ∨ (bufAt sampleHeader 25).val = 2 ∨
      (bufAt sampleHeader 25).val = 3 ∨ (bufAt sampleHeader 25).val = 4 ∨
      (bufAt sampleHeader 25).val = 6) ∧
    (colorFactor (bufAt sampleHeader 25).val = some (channels (bufAt sampleHeader 25).val) ∧
    u16 (channels (bufAt sampleHeader 25).val * (bufAt sampleHeader 24).val) =
      (bufAt sampleHeader 24).val * channels (bufAt sampleHeader 25).val ∧
    (framed (bufAt sampleHeader) → inspect .little (readBuf sampleHeader) =
      if (bufAt sampleHeader 24).val * channels (bufAt sampleHeader 25).val ≤ 32 then
        .accept (be32 (bufAt sampleHeader) 16) (be32 (bufAt sampleHeader) 20)
          ((bufAt sampleHeader 24).val * channels (bufAt sampleHeader 25).val)
      else .ignore) ∧
    (¬ framed (bufAt sampleHeader) → inspect .little (readBuf sampleHeader) = .ignore) ∧
    (colorFactor 2 = some 3 ∧ u16 (3 * 8) = 24 ∧ colorFactor 6 = some 4 ∧ u16 (4 * 8) = 32 ∧
      u16 (4 * 16) = 64)) :=
  ⟨fun k hk => readBuf_eq_bufAt sampleHeader k (Nat.lt_of_lt_of_le hk (by decide)),
   Or.inr (Or.inl rfl),
   pixeldepth_computation .little (readBuf sampleHeader) (bufAt sampleHeader)
     (fun k hk => readBuf_eq_bufAt sampleHeader k (Nat.lt_of_lt_of_le hk (by decide)))
     (Or.inr (Or.inl rfl))⟩

/-- C11. When no file of the sequence is accepted the run is defined and
nothing is left at the output path: the guard `count && offset` of line 338
fails, so the output file is neither opened nor written. The empty sequence is
such a run. -/
theorem no_output_when_nothing_accepted (host : Host) (garbage : Nat → Byte)
    (files : List PngFile) (icoOpenOk : Bool)
    (h : accepted host (Packer.init host garbage) files = []) :
    icopacker host garbage files icoOpenOk = .noFile ∧
    icopacker host garbage [] icoOpenOk = .noFile := by
  have key : ∀ fs, accepted host (Packer.init host garbage) fs = [] →
      icopacker host garbage fs icoOpenOk = .noFile := by
    intro fs hfs
    obtain ⟨s, hs, hc⟩ := scan_none_accepted host fs (Packer.init host garbage)
      rfl rfl rfl (Nat.le_refl _) (by rw [init_dircnt]; decide) hfs
    unfold icopacker
    rw [hs]
    unfold wrapUp
    simp only []
    rw [if_neg (by rw [hc]; simp)]
  exact ⟨key files h, key [] rfl⟩

/-- Witness for `no_output_when_nothing_accepted`: a file of pixel depth 64 and
a file with a wrong header chunk length. -/
theorem no_output_when_nothing_accepted_witness :
    accepted .little (Packer.init .little zeroed) [deepPng, badLengthPng] = [] ∧
    (icopacker .little zeroed [deepPng, badLengthPng] true = .noFile ∧
    icopacker .little zeroed [] true = .noFile) :=
  ⟨by decide, no_output_when_nothing_accepted .little zeroed [deepPng, badLengthPng] true
    (by decide)⟩

/-- C12. On either host byte order `SwapInt16` is an involution on the 16 bit
values and `SwapInt32` on the 32 bit values, and so `mapLE16`, `mapLE32` and
`mapBE32` applied twice give back the value. -/
theorem swap_involutions (host : Host) (x y : Nat) (hx : x < 65536) (hy : y < 4294967296) :
    SwapInt16 host (SwapInt16 host x) = x ∧
    SwapInt32 host (SwapInt32 host y) = y ∧
    mapLE16 host (mapLE16 host x) = x ∧
    mapLE32 host (mapLE32 host y) = y ∧
    mapBE32 host (mapBE32 host y) = y := by
  refine ⟨SwapInt16_SwapInt16 host x hx, SwapInt32_SwapInt32 host y hy, ?_, ?_, ?_⟩
  · cases host
    · rfl
    · exact SwapInt16_SwapInt16 .big x hx
  · cases host
    · rfl
    · exact SwapInt32_SwapInt32 .big y hy
  · cases host
    · exact SwapInt32_SwapInt32 .little y hy
    · rfl

/-- Witness for `swap_involutions` at 0x1234 and 0x12345678 on a big-endian
host. -/
theorem swap_involutions_witness :
    4660 < 65536 ∧ 305419896 < 4294967296 ∧
    (SwapInt16 .big (SwapInt16 .big 4660) = 4660 ∧
    SwapInt32 .big (SwapInt32 .big 305419896) = 305419896 ∧
    mapLE16 .big (mapLE16 .big 4660) = 4660 ∧
    mapLE32 .big (mapLE32 .big 305419896) = 305419896 ∧
    mapBE32 .big (mapBE32 .big 305419896) = 305419896) :=
  ⟨by decide, by decide, swap_involutions .big 4660 305419896 (by decide) (by decide)⟩

/-- C14. On a little-endian host `mapBE32` of the word loaded from four bytes
`b0 b1 b2 b3` in host order is `b0*2^24 + b1*2^16 + b2*2^8 + b3`. So the values
the header checks compare, `mapBE32(png[2])`, `mapBE32(png[4])` and
`mapBE32(png[5])`, are the big-endian values of bytes 8-11, 16-19 and 20-23 of
the buffer, and `mapLE16` and `mapLE32` are the identity there. -/
theorem big_endian_decode (buf : List Byte) (hlen : 24 ≤ buf.length) :
    (∀ b0 b1 b2 b3 : Byte, mapBE32 .little (load32 .little b0 b1 b2 b3) =
      b0.val * 2 ^ 24 + b1.val * 2 ^ 16 + b2.val * 2 ^ 8 + b3.val) ∧
    (png .little (readBuf buf) 2).map (mapBE32 .little) = some (be32 (bufAt buf) 8) ∧
    (png .little (readBuf buf) 4).map (mapBE32 .little) = some (be32 (bufAt buf) 16) ∧
    (png .little (readBuf buf) 5).map (mapBE32 .little) = some (be32 (bufAt buf) 20) ∧
    (∀ x, mapLE16 .little x = x ∧ mapLE32 .little x = x) := by
  have hrd : ∀ k, k < 24 → readBuf buf k = some (bufAt buf k) :=
    fun k hk => readBuf_eq_bufAt buf k (Nat.lt_of_lt_of_le hk hlen)
  refine ⟨?_, ?_, ?_, ?_, fun _ => ⟨rfl, rfl⟩⟩
  · intro b0 b1 b2 b3
    rw [mapBE32_load32]
    omega
  · simp only [png, hrd 8 (by decide), hrd 9 (by decide), hrd 10 (by decide),
      hrd 11 (by decide), Option.map_some', mapBE32_load32, be32]
  · simp only [png, hrd 16 (by decide), hrd 17 (by decide), hrd 18 (by decide),
      hrd 19 (by decide), Option.map_some', mapBE32_load32, be32]
  · simp only [png, hrd 20 (by decide), hrd 21 (by decide), hrd 22 (by decide),
      hrd 23 (by decide), Option.map_some', mapBE32_load32, be32]

/-- Witness for `big_endian_decode` on the 33 bytes of `sampleHeader`. -/
theorem big_endian_decode_witness :
    24 ≤ sampleHeader.length ∧
    ((∀ b0 b1 b2 b3 : Byte, mapBE32 .little (load32 .little b0 b1 b2 b3) =
      b0.val * 2 ^ 24 + b1.val * 2 ^ 16 + b2.val * 2 ^ 8 + b3.val) ∧
    (png .little (readBuf sampleHeader) 2).map (mapBE32 .little) =
      some (be32 (bufAt sampleHeader) 8) ∧
    (png .little (readBuf sampleHeader) 4).map (mapBE32 .little) =
      some (be32 (bufAt sampleHeader) 16) ∧
    (png .little (readBuf sampleHeader) 5).map (mapBE32 .little) =
      some (be32 (bufAt sampleHeader) 20) ∧
    (∀ x, mapLE16 .little x = x ∧ mapLE32 .little x = x)) :=
  ⟨by decide, big_endian_decode sampleHeader (by decide)⟩

/-- C15, evaluated where the code departs from it. `bufsiz` is never assigned
after line 257. After `bigPng` (3145728 bytes) the running offset is 3145728 and
the allocation holds 5242880 bytes. For the next file, `tinyPng` of 26 bytes, the
test `offset + st.st_size < bufsiz` of line 277 fails and the growth step asks
for `bufsiz + st.st_size + 1048576` = 2097178 bytes, fewer than the 3145754 the
read at `icodat+offset` needs and fewer than the payload stored so far: the read
leaves the allocation and the run is undefined. -/
theorem payload_buffer_too_small (host : Host) (garbage : Nat → Byte) :
    ∃ s, scan host (Packer.init host garbage) [bigPng] = some s ∧
      s.offset = 3145728 ∧ tinyPng.st_size = 26 ∧ s.datcap = 5242880 ∧
      ¬ (s.offset + tinyPng.st_size < s.bufsiz) ∧
      s.bufsiz + tinyPng.st_size + 1048576 = 2097178 ∧
      2097178 < s.offset + tinyPng.st_size ∧
      visit host s tinyPng = none ∧
      ∀ icoOpenOk, icopacker host garbage [bigPng, tinyPng] icoOpenOk = .undefined := by
  obtain ⟨s, hs, a2, a3, a4, a1, a5⟩ := scan_big host garbage
  have hnlt : ¬ (s.offset + tinyPng.st_size < s.bufsiz) := by
    rw [a3, a1, st_size_tinyPng]
    decide
  have hv : visit host s tinyPng = none := by
    unfold visit
    rw [if_pos ⟨rfl, by rw [st_size_tinyPng]; decide, rfl⟩]
    simp only []
    rw [if_neg hnlt, if_neg]
    rw [a3, a1, st_size_tinyPng]
    decide
  refine ⟨s, hs, a3, rfl, a5, hnlt, by rw [a1, st_size_tinyPng], ?_, hv, ?_⟩
  · rw [a3, st_size_tinyPng]
    decide
  · intro b
    have h := scan_append host [bigPng] [tinyPng] (Packer.init host garbage)
    rw [hs] at h
    simp only [List.cons_append, List.nil_append] at h
    apply icopacker_of_scan_none
    rw [h, scan, if_pos (by rw [a2]; decide), hv]

/-- C16. The directory allocation holds `dircnt` entries, 10 at the start. In
the state before any iteration of the loop `count <= dircnt`, and `count` entries
are stored. The growth step of line 276 leaves `dircnt` as it is while
`count < dircnt` and adds 10 when `count` has reached it, and with the value it
leaves `count < dircnt`, so the store `icodir->entry[count++]` of line 320 is
inside the allocation: a pass of the loop body that stores an entry stores it at
index `count < dircnt`, and the pass ends with `count <= dircnt` again. -/
theorem directory_capacity (host : Host) (garbage : Nat → Byte) (files : List PngFile)
    (s : Packer) (hs : scan host (Packer.init host garbage) files = some s) :
    (Packer.init host garbage).dircnt = 10 ∧
    s.count ≤ s.dircnt ∧
    s.entry.length = s.count ∧
    s.count < (if s.count < s.dircnt then s.dircnt else u32 (s.dircnt + 10)) ∧
    ∀ f s1, visit host s f = some s1 →
      (s1.dircnt = s.dircnt ∨ (s.count = s.dircnt ∧ s1.dircnt = s.dircnt + 10)) ∧
      s1.count ≤ s1.dircnt ∧
      (s1.entry ≠ s.entry → s.count < s1.dircnt ∧ s1.entry.length = s.count + 1) := by
  obtain ⟨hi, hc⟩ := scan_init_dircnt host garbage files s hs
  have hl : s.entry.length = s.count :=
    scan_entry_length host files _ s (by rw [init_count]; exact Nat.zero_le _)
      (by rw [init_entry, init_count]; rfl) hs
  refine ⟨init_dircnt host garbage, hi, hl, ?_, ?_⟩
  · by_cases hlt : s.count < s.dircnt
    · rw [if_pos hlt]
      exact hlt
    · rw [if_neg hlt]
      unfold u32
      omega
  · intro f s1 hv
    obtain ⟨h1, h2⟩ := visit_dircnt host s s1 f hv hc hi
    refine ⟨h2, h1, ?_⟩
    intro hne
    rcases visit_cases host s s1 f hv with h | ⟨-, h⟩ | ⟨w, hh, d, -, hlt, h⟩
    · rw [h] at hne
      exact absurd rfl hne
    · rw [h] at hne
      exact absurd rfl hne
    · refine ⟨hlt, ?_⟩
      rw [h]
      show (s.entry ++ [_]).length = s.count + 1
      rw [List.length_append, hl]
      rfl

/-- Witness for `directory_capacity` in the state after ten files `tinyPng`,
where `count` has reached `dircnt`. -/
theorem directory_capacity_witness :
    scan .little (Packer.init .little zeroed) (List.replicate 10 tinyPng) = some tenTiny ∧
    ((Packer.init .little zeroed).dircnt = 10 ∧
    tenTiny.count ≤ tenTiny.dircnt ∧
    tenTiny.entry.length = tenTiny.count ∧
    tenTiny.count < (if tenTiny.count < tenTiny.dircnt then tenTiny.dircnt
      else u32 (tenTiny.dircnt + 10)) ∧
    ∀ f s1, visit .little tenTiny f = some s1 →
      (s1.dircnt = tenTiny.dircnt ∨
        (tenTiny.count = tenTiny.dircnt ∧ s1.dircnt = tenTiny.dircnt + 10)) ∧
      s1.count ≤ s1.dircnt ∧
      (s1.entry ≠ tenTiny.entry →
        tenTiny.count < s1.dircnt ∧ s1.entry.length = tenTiny.count + 1)) :=
  ⟨rfl, directory_capacity .little zeroed (List.replicate 10 tinyPng) tenTiny rfl⟩

/-- C17. The filter of line 265 lets a directory entry pass if and only if it
is a regular file, its name does not begin with `.`, and its name ends with the
four bytes `.png`, compared byte for byte on either host. For a name of fewer
than four bytes the comparison reaches in front of `d_name`; there the entry is
rejected, given that the byte right in front of `d_name` (a byte of `d_type`, of
`d_namlen` or of padding in the records of `<dirent.h>`) is none of `.`, `p`,
`n`, `g`. Whatever the record holds there, `a.png` passes, and `notes.txt`,
`b.PNG`, `.png`, `a`, `ab` and `abc` do not. -/
theorem candidate_filter (host : Host) (ep : DirEnt)
    (hfront : ep.d_namlen < 4 →
      ep.front 0 ≠ 0x2E ∧ ep.front 0 ≠ 0x70 ∧ ep.front 0 ≠ 0x6E ∧ ep.front 0 ≠ 0x67) :
    (isCandidate host ep = true ↔
      ep.d_type = DT_REG ∧ ep.d_name.head? ≠ some 0x2E ∧
      [0x2E, 0x70, 0x6E, 0x67] <:+ ep.d_name) ∧
    (ep.d_namlen < 4 → isCandidate host ep = false) ∧
    (∀ front f,
      isCandidate host (regular nameAPng front f) = true ∧
      isCandidate host (regular nameNotesTxt front f) = false ∧
      isCandidate host (regular nameBUpper front f) = false ∧
      isCandidate host (regular nameDotPng front f) = false ∧
      isCandidate host (regular nameA front f) = false ∧
      isCandidate host (regular nameAB front f) = false ∧
      isCandidate host (regular nameABC front f) = false) := by
  refine ⟨?_, fun h => isCandidate_of_short host ep h (hfront h), ?_⟩
  · by_cases h : 4 ≤ ep.d_namlen
    · exact isCandidate_of_long host ep h
    · have hlt : ep.d_namlen < 4 := by omega
      have hf := isCandidate_of_short host ep hlt (hfront hlt)
      rw [hf]
      constructor
      · intro hc
        cases hc
      · rintro ⟨-, -, hs⟩
        have hle := hs.length_le
        simp only [List.length_cons, List.length_nil] at hle
        unfold DirEnt.d_namlen at hlt
        omega
  · intro front f
    obtain ⟨e1, e2, e3, e4, -, e6, e7, e8⟩ := isCandidate_examples host front f
    exact ⟨e1, e2, e3, e4, e6, e7, e8⟩

/-- Witness for `candidate_filter`: a regular file named `png` in a record that
has `d_type` right in front of `d_name`. -/
theorem candidate_filter_witness :
    (entPng.d_namlen < 4 →
      entPng.front 0 ≠ 0x2E ∧ entPng.front 0 ≠ 0x70 ∧ entPng.front 0 ≠ 0x6E ∧
      entPng.front 0 ≠ 0x67) ∧
    ((isCandidate .little entPng = true ↔
      entPng.d_type = DT_REG ∧ entPng.d_name.head? ≠ some 0x2E ∧
      [0x2E, 0x70, 0x6E, 0x67] <:+ entPng.d_name) ∧
    (entPng.d_namlen < 4 → isCandidate .little entPng = false) ∧
    (∀ front f,
      isCandidate .little (regular nameAPng front f) = true ∧
      isCandidate .little (regular nameNotesTxt front f) = false ∧
      isCandidate .little (regular nameBUpper front f) = false ∧
      isCandidate .little (regular nameDotPng front f) = false ∧
      isCandidate .little (regular nameA front f) = false ∧
      isCandidate .little (regular nameAB front f) = false ∧
      isCandidate .little (regular nameABC front f) = false)) :=
  ⟨by decide, candidate_filter .little entPng (by decide)⟩

end Icopacker
